import Mathlib

/-!
# BigInt (src/BigInt.cpp): a shallow embedding and its verification

The C++ class `BigInt` stores a decimal digit string (`number`, most significant
digit first) and a sign flag (`isNegative`).  This file translates the class into
Lean definitions and proves or refutes properties of them.

Modelling conventions
* `std::string` is a `List Char` and a C++ `char` a Lean `Char`; `c - '0'` is
  `digitOf c`, the implicit `int → char` conversion of `push_back (v + '0')` is
  `charOf (v + 48)`, and `isdigit (c)` is `Char.isDigit c` (the test
  `'0' <= c && c <= '9'`).
* C++ `int` arithmetic is done on `Int` with truncating `/` and `%`
  (`Int.tdiv`, `Int.tmod`).  String positions are unbounded naturals: the
  conversions `(int) number.size ()` are exact for strings shorter than 2^31.
* Loops that walk a string from its last character to its first are recursions
  over the reversed string; the characters pushed by the loop are returned in
  push order and reversed afterwards, as the source does with `reverse`.
* The mutually recursive `operator+=` / `operator-=` and the `while` loop of
  `operator/=` take a `fuel` argument that bounds the depth of calls and the
  number of iterations; running out of fuel is the outcome `outOfFuel`.
  A computation that is `outOfFuel` for every `fuel` never returns.
* An exception is the outcome `throw`; for the compound assignment operators it
  carries the state of `*this` at the point of the `throw`.
-/

namespace BigIntCpp

/-! ## Data model -/

/-- The exception classes thrown by the source: `invalid_argument` (string
constructor) and `runtime_error` (division and modulus by zero). -/
inductive Error where
  | invalid_argument
  | runtime_error
deriving DecidableEq

/-- Outcome of a call that returns a value. -/
inductive Val (α : Type) where
  | ok (a : α)
  | throw (e : Error)
  | outOfFuel
deriving DecidableEq

/-- The class `BigInt` (lines 9-12): the digit string and the sign flag. -/
structure BigInt where
  number : List Char
  isNegative : Bool
deriving DecidableEq

/-- Outcome of a compound assignment on `*this`: the state of `*this` after a
normal return, or the exception together with the state of `*this` when it was
thrown. -/
inductive Res where
  | ok (self : BigInt)
  | throw (e : Error) (self : BigInt)
  | outOfFuel
deriving DecidableEq

/-- The value a by-value caller sees: `lhs op= rhs; return lhs;`. -/
def Res.toVal : Res → Val BigInt
  | .ok self => .ok self
  | .throw e _ => .throw e
  | .outOfFuel => .outOfFuel

/-- The expression `c - '0'`. -/
def digitOf (c : Char) : Int := (c.toNat : Int) - 48

/-- The conversion of an `int` to a `char` (its value modulo 256). -/
def charOf (v : Int) : Char := Char.ofNat (v % 256).toNat

/-- The scan `while (i < len && number[i] == '0') ++i;` of `removeLeadingZeros`
(lines 17-23): the final value of `i`. -/
def leadingZeros : List Char → Nat
  | [] => 0
  | c :: cs => if c = '0' then leadingZeros cs + 1 else 0

/-- The member `removeLeadingZeros` (lines 15-33). -/
def removeLeadingZeros (self : BigInt) : BigInt :=
  let i := leadingZeros self.number
  if i = self.number.length then ⟨['0'], false⟩
  else ⟨self.number.drop i, self.isNegative⟩

/-- The comparison `a < b` of two `std::string`s: lexicographic on the
character codes, a proper initial segment being smaller. -/
def strLt : List Char → List Char → Bool
  | [], [] => false
  | [], _ :: _ => true
  | _ :: _, [] => false
  | a :: as, b :: bs =>
    if a.toNat < b.toNat then true
    else if b.toNat < a.toNat then false
    else strLt as bs

/-- The member `compareMagnitude` (lines 37-48). -/
def compareMagnitude (self other : BigInt) : Int :=
  if self.number.length > other.number.length then 1
  else if self.number.length < other.number.length then -1
  else if strLt other.number self.number then 1
  else if strLt self.number other.number then -1
  else 0

/-- The default constructor (lines 52-56). -/
def BigInt.default : BigInt := ⟨['0'], false⟩

/-- The constant `INT64_MIN`. -/
def INT64_MIN : Int := -9223372036854775808

/-- The loop `while (temp > 0)` of the integer constructor (lines 83-87).  The
first argument bounds the number of iterations; `ofInt64` passes `temp` itself,
which the loop can never use up because `temp / 10 < temp`. -/
def ofInt64Loop : Nat → Int → List Char → List Char
  | 0, _, number => number
  | fuel + 1, temp, number =>
    if temp > 0 then ofInt64Loop fuel (temp.tdiv 10) (charOf (temp.tmod 10 + 48) :: number)
    else number

/-- The constructor `BigInt(int64_t value)` (lines 59-88). -/
def ofInt64 (value : Int) : BigInt :=
  if value = 0 then ⟨['0'], false⟩
  else if value < 0 then
    if value = INT64_MIN then ⟨"9223372036854775808".toList, true⟩
    else ⟨ofInt64Loop (-value).toNat (-value) [], true⟩
  else ⟨ofInt64Loop value.toNat value [], false⟩

/-- The constructor `BigInt(const string &str)` (lines 91-131). -/
def ofString (str : List Char) : Val BigInt :=
  if str = [] ∨ str = ['0'] ∨ str = ['+', '0'] ∨ str = ['-', '0'] then .ok ⟨['0'], false⟩
  else
    let isNegative : Bool := str.head? = some '-'
    let start : Nat := if str.head? = some '-' then 1 else if str.head? = some '+' then 1 else 0
    let number := str.drop start
    if number.all Char.isDigit then
      let r := removeLeadingZeros ⟨number, isNegative⟩
      .ok (if r.number = ['0'] then ⟨r.number, false⟩ else r)
    else .throw .invalid_argument

/-- Unary `operator-` (lines 160-168). -/
def opNeg (self : BigInt) : BigInt :=
  if self.number ≠ ['0'] then ⟨self.number, !self.isNegative⟩ else self

/-- Unary `operator+` (lines 171-174). -/
def opPos (self : BigInt) : BigInt := self

/-! ## Addition and subtraction -/

/-- The iterations of the addition loop (lines 186-197) with `i < 0`, `j < 0`
and `carry != 0`.  The first argument bounds the number of iterations; the
caller passes `|carry|`, which suffices because `|carry / 10| < |carry|`. -/
def addCarry : Nat → Int → List Char
  | 0, _ => []
  | fuel + 1, carry =>
    if carry ≠ 0 then
      let sum := 0 + 0 + carry
      charOf (sum.tmod 10 + 48) :: addCarry fuel (sum.tdiv 10)
    else []

/-- The iterations of the addition loop with `i < 0`: only `other.number` has
characters left (given last character first). -/
def addTail : List Char → Int → List Char
  | [], carry => addCarry carry.natAbs carry
  | b :: bs, carry =>
    let sum := 0 + digitOf b + carry
    charOf (sum.tmod 10 + 48) :: addTail bs (sum.tdiv 10)

/-- The addition loop `while (i >= 0 || j >= 0 || carry)` (lines 186-197).  The
two strings are given last character first; the result lists the characters in
the order in which the loop pushes them. -/
def addLoop : List Char → List Char → Int → List Char
  | [], bs, carry => addTail bs carry
  | a :: as, [], carry =>
    let sum := digitOf a + 0 + carry
    charOf (sum.tmod 10 + 48) :: addLoop as [] (sum.tdiv 10)
  | a :: as, b :: bs, carry =>
    let sum := digitOf a + digitOf b + carry
    charOf (sum.tmod 10 + 48) :: addLoop as bs (sum.tdiv 10)

/-- The subtraction loop `while (i >= 0)` (lines 236-252): `n1` and `n2` are
given last character first, the third argument is `borrow`. -/
def subLoop : List Char → List Char → Int → List Char
  | [], _, _ => []
  | a :: as, bs, borrow =>
    let digit1 := digitOf a - borrow
    let digit2 := match bs with
      | [] => 0
      | b :: _ => digitOf b
    if digit1 < digit2 then charOf ((digit1 + 10 - digit2) + 48) :: subLoop as bs.tail 1
    else charOf ((digit1 - digit2) + 48) :: subLoop as bs.tail 0

mutual
/-- The member `operator+=` (lines 177-209). -/
def opAddAssign : Nat → BigInt → BigInt → Res
  | 0, _, _ => .outOfFuel
  | fuel + 1, self, other =>
    if self.isNegative = other.isNegative then
      let result := addLoop self.number.reverse other.number.reverse 0
      .ok (removeLeadingZeros ⟨result.reverse, self.isNegative⟩)
    else
      match opSubAssign fuel self (opNeg other) with
      | .ok self1 => .ok (removeLeadingZeros self1)
      | .throw e self1 => .throw e self1
      | .outOfFuel => .outOfFuel
/-- The member `operator-=` (lines 212-260). -/
def opSubAssign : Nat → BigInt → BigInt → Res
  | 0, _, _ => .outOfFuel
  | fuel + 1, self, other =>
    if self.isNegative ≠ other.isNegative then
      opAddAssign fuel self (opNeg other)
    else
      let mag_cmp := compareMagnitude self other
      if mag_cmp = 0 then .ok (ofInt64 0)
      else
        let n1 := if mag_cmp > 0 then self.number else other.number
        let n2 := if mag_cmp > 0 then other.number else self.number
        let result_negative : Bool :=
          (decide (mag_cmp < 0) && !self.isNegative) || (decide (mag_cmp > 0) && self.isNegative)
        let result_str := subLoop n1.reverse n2.reverse 0
        .ok (removeLeadingZeros ⟨result_str.reverse, result_negative⟩)
end

/-- Binary `operator+` (lines 396-400). -/
def opAdd (fuel : Nat) (lhs rhs : BigInt) : Val BigInt := (opAddAssign fuel lhs rhs).toVal

/-- Binary `operator-` (lines 403-407). -/
def opSub (fuel : Nat) (lhs rhs : BigInt) : Val BigInt := (opSubAssign fuel lhs rhs).toVal

/-! ## Multiplication -/

/-- The inner loop `for (int j = n2.size() - 1; j >= 0; j--)` of `operator*`
(lines 427-432) for a fixed `i`: the first argument is `j + 1`, the state is
`res_str` and `carry`. -/
def mulInner (n1 n2 : List Char) (i : Nat) : Nat → List Char → Int → List Char × Int
  | 0, res_str, carry => (res_str, carry)
  | j + 1, res_str, carry =>
    let p := digitOf (n1.getD i '0') * digitOf (n2.getD j '0')
      + digitOf (res_str.getD (i + j + 1) '0') + carry
    mulInner n1 n2 i j (res_str.set (i + j + 1) (charOf (p.tmod 10 + 48))) (p.tdiv 10)

/-- The outer loop `for (int i = n1.size() - 1; i >= 0; i--)` of `operator*`
(lines 424-434): the first argument is `i + 1`. -/
def mulOuter (n1 n2 : List Char) : Nat → List Char → List Char
  | 0, res_str => res_str
  | i + 1, res_str =>
    let r := mulInner n1 n2 i n2.length res_str 0
    mulOuter n1 n2 i (r.1.set i (charOf ((digitOf (r.1.getD i '0') + r.2) + 48)))

/-- Binary `operator*` (lines 410-439). -/
def opMul (lhs rhs : BigInt) : BigInt :=
  if lhs.number = ['0'] ∨ rhs.number = ['0'] then ofInt64 0
  else
    let n1 := lhs.number
    let n2 := rhs.number
    let res_str := List.replicate (n1.length + n2.length) '0'
    removeLeadingZeros ⟨mulOuter n1 n2 n1.length res_str, lhs.isNegative != rhs.isNegative⟩

/-- The member `operator*=` (lines 263-267). -/
def opMulAssign (self other : BigInt) : Res := .ok (opMul self other)

/-! ## Division and modulus -/

/-- The loop `while (remainder.compareMagnitude(divisor) >= 0)` of `operator/=`
(lines 301-305); the state is `remainder` and `count`. -/
def divCount : Nat → BigInt → BigInt → Int → Val (BigInt × Int)
  | 0, _, _, _ => .outOfFuel
  | fuel + 1, remainder, divisor, count =>
    if compareMagnitude remainder divisor ≥ 0 then
      match opSubAssign fuel remainder divisor with
      | .ok remainder1 => divCount fuel remainder1 divisor (count + 1)
      | .throw e _ => .throw e
      | .outOfFuel => .outOfFuel
    else .ok (remainder, count)

/-- The loop `for (size_t i = 0; i < dividend.number.length(); i++)` of
`operator/=` (lines 292-307) over the characters of the dividend that are still
to be read; the state is `remainder` and `quotient_str`. -/
def divLoop (fuel : Nat) (divisor : BigInt) : List Char → BigInt → List Char → Val (List Char)
  | [], _, quotient_str => .ok quotient_str
  | d :: ds, remainder, quotient_str =>
    match divCount fuel (removeLeadingZeros ⟨remainder.number ++ [d], remainder.isNegative⟩)
        divisor 0 with
    | .ok (remainder1, count) =>
      divLoop fuel divisor ds remainder1 (quotient_str ++ [charOf (count + 48)])
    | .throw e => .throw e
    | .outOfFuel => .outOfFuel

/-- The member `operator/=` (lines 270-314). -/
def opDivAssign (fuel : Nat) (self other : BigInt) : Res :=
  if other.number = ['0'] then .throw .runtime_error self
  else
    let result_negative : Bool := self.isNegative != other.isNegative
    let dividend : BigInt := ⟨self.number, false⟩
    let divisor : BigInt := ⟨other.number, false⟩
    if compareMagnitude dividend divisor < 0 then .ok (ofInt64 0)
    else
      match divLoop fuel divisor dividend.number BigInt.default [] with
      | .ok quotient_str => .ok (removeLeadingZeros ⟨quotient_str, result_negative⟩)
      | .throw e => .throw e self
      | .outOfFuel => .outOfFuel

/-- Binary `operator/` (lines 442-446). -/
def opDiv (fuel : Nat) (lhs rhs : BigInt) : Val BigInt := (opDivAssign fuel lhs rhs).toVal

/-- Binary `operator%` (lines 449-467). -/
def opMod (fuel : Nat) (lhs rhs : BigInt) : Val BigInt :=
  if rhs.number = ['0'] then .throw .runtime_error
  else
    let lhs_negative := lhs.isNegative
    match opDiv fuel lhs rhs with
    | .ok quotient =>
      match opSub fuel lhs (opMul quotient rhs) with
      | .ok result =>
        .ok (if lhs_negative = true ∧ result.number ≠ ['0'] then ⟨result.number, true⟩ else result)
      | .throw e => .throw e
      | .outOfFuel => .outOfFuel
    | .throw e => .throw e
    | .outOfFuel => .outOfFuel

/-- The member `operator%=` (lines 317-326). -/
def opModAssign (fuel : Nat) (self other : BigInt) : Res :=
  if other.number = ['0'] then .throw .runtime_error self
  else
    match opMod fuel self other with
    | .ok r => .ok r
    | .throw e => .throw e self
    | .outOfFuel => .outOfFuel

/-! ## Conversion and comparison -/

/-- The member `toString` (lines 359-362). -/
def toString (self : BigInt) : List Char :=
  (if self.isNegative = true ∧ self.number ≠ ['0'] then ['-'] else []) ++ self.number

/-- The operator `==` (lines 470-473). -/
def opEq (lhs rhs : BigInt) : Bool :=
  (lhs.isNegative == rhs.isNegative) && (lhs.number == rhs.number)

/-! ## The specification side: canonical form and integer value -/

/-- The canonical form of the data model: a non-empty string of decimal digits
without a leading zero unless it is exactly "0", and no negative zero. -/
def Canonical (x : BigInt) : Prop :=
  x.number ≠ [] ∧ (∀ c ∈ x.number, c.isDigit = true) ∧
  (x.number.head? = some '0' → x.number = ['0']) ∧
  (x.number = ['0'] → x.isNegative = false)

instance (x : BigInt) : Decidable (Canonical x) := by
  unfold Canonical; infer_instance

/-- The natural number written by a digit string, most significant digit first. -/
def magnitude (s : List Char) : Int :=
  s.foldl (fun acc c => 10 * acc + digitOf c) 0

/-- The integer a `BigInt` stands for. -/
def value (x : BigInt) : Int :=
  if x.isNegative then - magnitude x.number else magnitude x.number

/-- All characters of the string are decimal digits. -/
def Digits (s : List Char) : Prop := ∀ c ∈ s, c.isDigit = true

instance (s : List Char) : Decidable (Digits s) := by
  unfold Digits; infer_instance

/-- The natural number written by a digit string given least significant digit
first. -/
def valLE : List Char → Int
  | [] => 0
  | a :: as => digitOf a + 10 * valLE as

/-- A canonical magnitude: non-empty, decimal digits only, no leading zero unless
the string is "0". -/
def CanonDigits (s : List Char) : Prop :=
  s ≠ [] ∧ Digits s ∧ (s.head? = some '0' → s = ['0'])

/-- The expression `(x / y) * y + (x % y) == x`, evaluated with the operators
of the class: quotient, remainder, product, sum, comparison. -/
def divModLaw (fuel : Nat) (x y : BigInt) : Val Bool :=
  match opDiv fuel x y with
  | .ok q =>
    match opMod fuel x y with
    | .ok m =>
      match opAdd fuel (opMul q y) m with
      | .ok s => .ok (opEq s x)
      | .throw e => .throw e
      | .outOfFuel => .outOfFuel
    | .throw e => .throw e
    | .outOfFuel => .outOfFuel
  | .throw e => .throw e
  | .outOfFuel => .outOfFuel

/-- The input string after removing at most one leading sign character. -/
def stripSign : List Char → List Char
  | [] => []
  | c :: cs => if c = '+' ∨ c = '-' then cs else c :: cs

/-- The canonical form of a signed decimal string, as the round-trip property
words it: the digits without their leading zeros ("0" if nothing is left),
preceded by a minus sign exactly when the string starts with one and the digits
are not all zero. -/
def canonicalForm (s : List Char) : List Char :=
  if (stripSign s).dropWhile (fun c => decide (c = '0')) = [] then ['0']
  else if s.head? = some '-' then '-' :: (stripSign s).dropWhile (fun c => decide (c = '0'))
  else (stripSign s).dropWhile (fun c => decide (c = '0'))


/-! ## Relational operators, increment and decrement -/

/-- The operator `!=` (lines 476-479). -/
def opNe (lhs rhs : BigInt) : Bool := !(opEq lhs rhs)

/-- The operator `<` (lines 482-498). -/
def opLt (lhs rhs : BigInt) : Bool :=
  if lhs.isNegative ≠ rhs.isNegative then lhs.isNegative
  else if (!lhs.isNegative) = true then decide (compareMagnitude lhs rhs < 0)
  else decide (compareMagnitude lhs rhs > 0)

/-- The operator `<=` (lines 501-504). -/
def opLe (lhs rhs : BigInt) : Bool := opLt lhs rhs || opEq lhs rhs

/-- The operator `>` (lines 507-510). -/
def opGt (lhs rhs : BigInt) : Bool := !(opLe lhs rhs)

/-- The operator `>=` (lines 513-516). -/
def opGe (lhs rhs : BigInt) : Bool := !(opLt lhs rhs)

/-- What a call of `++` or `--` leaves behind: the state of `*this` after the call
and the value the call returns. -/
structure Stepped where
  self : BigInt
  returned : BigInt
deriving DecidableEq

/-- Pre-increment `++x` (lines 329-333): `*this += BigInt(1); return *this;`. -/
def opPreInc (fuel : Nat) (self : BigInt) : Val Stepped :=
  match opAddAssign fuel self (ofInt64 1) with
  | .ok self1 => .ok ⟨self1, self1⟩
  | .throw e _ => .throw e
  | .outOfFuel => .outOfFuel

/-- Post-increment `x++` (lines 336-341): `temp = *this; *this += BigInt(1);
return temp;`. -/
def opPostInc (fuel : Nat) (self : BigInt) : Val Stepped :=
  let temp := self
  match opAddAssign fuel self (ofInt64 1) with
  | .ok self1 => .ok ⟨self1, temp⟩
  | .throw e _ => .throw e
  | .outOfFuel => .outOfFuel

/-- Pre-decrement `--x` (lines 344-348): `*this -= BigInt(1); return *this;`. -/
def opPreDec (fuel : Nat) (self : BigInt) : Val Stepped :=
  match opSubAssign fuel self (ofInt64 1) with
  | .ok self1 => .ok ⟨self1, self1⟩
  | .throw e _ => .throw e
  | .outOfFuel => .outOfFuel

/-- Post-decrement `x--` (lines 351-356): `temp = *this; *this -= BigInt(1);
return temp;`. -/
def opPostDec (fuel : Nat) (self : BigInt) : Val Stepped :=
  let temp := self
  match opSubAssign fuel self (ofInt64 1) with
  | .ok self1 => .ok ⟨self1, temp⟩
  | .throw e _ => .throw e
  | .outOfFuel => .outOfFuel

/-- The constant `INT64_MAX`. -/
def INT64_MAX : Int := 9223372036854775807

/-- The usual decimal representation of an integer, written with the digit
list of Mathlib (`Nat.digits`, least significant digit first): "0" for zero,
otherwise the digits of the absolute value from the most significant one, after
a minus sign when the integer is negative. -/
def decimalRepr (v : Int) : List Char :=
  if v = 0 then ['0']
  else if v < 0 then '-' :: ((Nat.digits 10 v.natAbs).reverse.map Nat.digitChar)
  else (Nat.digits 10 v.natAbs).reverse.map Nat.digitChar

/-! ## Digits and their values -/

theorem isDigit_iff (c : Char) : c.isDigit = true ↔ 48 ≤ c.toNat ∧ c.toNat ≤ 57 := by
  simp only [Char.isDigit, Bool.and_eq_true, decide_eq_true_eq, Char.toNat]
  constructor
  · rintro ⟨h1, h2⟩
    exact ⟨h1, h2⟩
  · rintro ⟨h1, h2⟩
    exact ⟨h1, h2⟩

theorem digitOf_range {c : Char} (h : c.isDigit = true) : 0 ≤ digitOf c ∧ digitOf c ≤ 9 := by
  rw [isDigit_iff] at h
  unfold digitOf
  omega

/-- Writing a decimal digit as a character and reading it back. -/
theorem charOf_digit (d : Int) (h0 : 0 ≤ d) (h9 : d ≤ 9) :
    digitOf (charOf (d + 48)) = d ∧ (charOf (d + 48)).isDigit = true := by
  interval_cases d <;> exact ⟨by decide, by decide⟩

theorem digitOf_charOf (d : Int) (h0 : 0 ≤ d) (h9 : d ≤ 9) : digitOf (charOf (d + 48)) = d :=
  (charOf_digit d h0 h9).1

theorem isDigit_charOf (d : Int) (h0 : 0 ≤ d) (h9 : d ≤ 9) :
    (charOf (d + 48)).isDigit = true :=
  (charOf_digit d h0 h9).2

theorem eq_zero_char_iff (c : Char) : c = '0' ↔ digitOf c = 0 := by
  constructor
  · rintro rfl
    decide
  · intro h
    unfold digitOf at h
    have h1 : c.toNat = 48 := by omega
    apply Char.ext
    apply UInt32.ext
    exact h1

theorem digitOf_inj {a b : Char} (h : digitOf a = digitOf b) : a = b := by
  unfold digitOf at h
  have h1 : a.toNat = b.toNat := by omega
  apply Char.ext
  apply UInt32.ext
  exact h1

theorem Digits.cons {c : Char} {s : List Char} (hc : c.isDigit = true) (hs : Digits s) :
    Digits (c :: s) := by
  intro d hd
  rcases List.mem_cons.mp hd with rfl | hd
  · exact hc
  · exact hs d hd

theorem Digits.head {c : Char} {s : List Char} (h : Digits (c :: s)) : c.isDigit = true :=
  h c (List.mem_cons_self c s)

theorem Digits.tail {c : Char} {s : List Char} (h : Digits (c :: s)) : Digits s :=
  fun d hd => h d (List.mem_cons_of_mem c hd)

theorem Digits.nil : Digits [] := fun _ h => absurd h (List.not_mem_nil _)

theorem Digits.reverse {s : List Char} (h : Digits s) : Digits s.reverse :=
  fun d hd => h d (List.mem_reverse.mp hd)

theorem Digits.append {s t : List Char} (hs : Digits s) (ht : Digits t) : Digits (s ++ t) := by
  intro d hd
  rcases List.mem_append.mp hd with h | h
  · exact hs d h
  · exact ht d h

theorem Digits.drop {s : List Char} (h : Digits s) (n : Nat) : Digits (s.drop n) :=
  fun d hd => h d (List.mem_of_mem_drop hd)

theorem valLE_nonneg {s : List Char} (h : Digits s) : 0 ≤ valLE s := by
  induction s with
  | nil => simp [valLE]
  | cons a as ih =>
    have := digitOf_range h.head
    have := ih h.tail
    simp only [valLE]
    omega

theorem valLE_lt {s : List Char} (h : Digits s) : valLE s < 10 ^ s.length := by
  induction s with
  | nil => simp [valLE]
  | cons a as ih =>
    have := digitOf_range h.head
    have := ih h.tail
    simp only [valLE, List.length_cons, pow_succ]
    omega

theorem valLE_append (s t : List Char) : valLE (s ++ t) = valLE s + 10 ^ s.length * valLE t := by
  induction s with
  | nil => simp [valLE]
  | cons a as ih =>
    show digitOf a + 10 * valLE (as ++ t) = _
    rw [ih]
    simp only [valLE, List.length_cons, pow_succ]
    ring

theorem magnitude_append (s : List Char) (c : Char) :
    magnitude (s ++ [c]) = 10 * magnitude s + digitOf c := by
  simp [magnitude, List.foldl_append]

theorem magnitude_eq_valLE (s : List Char) : magnitude s = valLE s.reverse := by
  induction s using List.reverseRecOn with
  | nil => rfl
  | append_singleton s c ih =>
    rw [magnitude_append, List.reverse_append, ih]
    simp [valLE]
    ring

theorem magnitude_reverse (s : List Char) : magnitude s.reverse = valLE s := by
  rw [magnitude_eq_valLE, List.reverse_reverse]

theorem magnitude_cons (c : Char) (s : List Char) :
    magnitude (c :: s) = digitOf c * 10 ^ s.length + magnitude s := by
  rw [magnitude_eq_valLE, magnitude_eq_valLE, List.reverse_cons, valLE_append]
  simp [valLE]
  ring

theorem magnitude_nonneg {s : List Char} (h : Digits s) : 0 ≤ magnitude s := by
  rw [magnitude_eq_valLE]
  exact valLE_nonneg h.reverse

theorem magnitude_lt {s : List Char} (h : Digits s) : magnitude s < 10 ^ s.length := by
  rw [magnitude_eq_valLE]
  have := valLE_lt h.reverse
  simpa using this

theorem tdiv_ten {a : Int} (h : 0 ≤ a) : a.tdiv 10 = a / 10 :=
  Int.tdiv_eq_ediv h (by decide)

theorem tmod_ten {a : Int} (h : 0 ≤ a) : a.tmod 10 = a % 10 :=
  Int.tmod_eq_emod h (by decide)

/-! ## The addition loop -/

theorem addCarry_spec (carry : Int) (hc : carry = 0 ∨ carry = 1) :
    valLE (addCarry carry.natAbs carry) = carry ∧ Digits (addCarry carry.natAbs carry) ∧
      (addCarry carry.natAbs carry).length = carry.toNat := by
  rcases hc with rfl | rfl
  · exact ⟨by decide, by decide, by decide⟩
  · exact ⟨by decide, by decide, by decide⟩

theorem addTail_spec (bs : List Char) : ∀ carry : Int, Digits bs → (carry = 0 ∨ carry = 1) →
    valLE (addTail bs carry) = valLE bs + carry ∧ Digits (addTail bs carry) := by
  induction bs with
  | nil =>
    intro carry _ hc
    have := addCarry_spec carry hc
    simp only [addTail, valLE]
    exact ⟨by omega, this.2.1⟩
  | cons b bs ih =>
    intro carry hd hc
    have hb := digitOf_range hd.head
    have hs : 0 ≤ 0 + digitOf b + carry := by omega
    have h19 : 0 + digitOf b + carry ≤ 10 := by omega
    have hc1 : (0 + digitOf b + carry) / 10 = 0 ∨ (0 + digitOf b + carry) / 10 = 1 := by omega
    obtain ⟨h1, h2⟩ := ih ((0 + digitOf b + carry) / 10) hd.tail hc1
    simp only [addTail, valLE, tdiv_ten hs, tmod_ten hs]
    refine ⟨?_, Digits.cons (isDigit_charOf _ (by omega) (by omega)) h2⟩
    rw [h1, digitOf_charOf _ (by omega) (by omega)]
    omega

theorem addLoop_spec (as : List Char) : ∀ (bs : List Char) (carry : Int), Digits as → Digits bs →
    (carry = 0 ∨ carry = 1) →
    valLE (addLoop as bs carry) = valLE as + valLE bs + carry ∧ Digits (addLoop as bs carry) := by
  induction as with
  | nil =>
    intro bs carry _ hb hc
    have := addTail_spec bs carry hb hc
    simp only [addLoop, valLE]
    exact ⟨by omega, this.2⟩
  | cons a as ih =>
    intro bs carry ha hb hc
    have hra := digitOf_range ha.head
    cases bs with
    | nil =>
      have hs : 0 ≤ digitOf a + 0 + carry := by omega
      have hc1 : (digitOf a + 0 + carry) / 10 = 0 ∨ (digitOf a + 0 + carry) / 10 = 1 := by omega
      obtain ⟨h1, h2⟩ := ih [] ((digitOf a + 0 + carry) / 10) ha.tail Digits.nil hc1
      simp only [addLoop, valLE, tdiv_ten hs, tmod_ten hs]
      refine ⟨?_, Digits.cons (isDigit_charOf _ (by omega) (by omega)) h2⟩
      rw [h1, digitOf_charOf _ (by omega) (by omega)]
      simp only [valLE]
      omega
    | cons b bs =>
      have hrb := digitOf_range hb.head
      have hs : 0 ≤ digitOf a + digitOf b + carry := by omega
      have hc1 : (digitOf a + digitOf b + carry) / 10 = 0 ∨
          (digitOf a + digitOf b + carry) / 10 = 1 := by omega
      obtain ⟨h1, h2⟩ := ih bs ((digitOf a + digitOf b + carry) / 10) ha.tail hb.tail hc1
      simp only [addLoop, valLE, tdiv_ten hs, tmod_ten hs]
      refine ⟨?_, Digits.cons (isDigit_charOf _ (by omega) (by omega)) h2⟩
      rw [h1, digitOf_charOf _ (by omega) (by omega)]
      omega

/-! ## The subtraction loop -/

theorem subLoop_length (as : List Char) : ∀ (bs : List Char) (borrow : Int),
    (subLoop as bs borrow).length = as.length := by
  induction as with
  | nil => intro bs borrow; rfl
  | cons a as ih =>
    intro bs borrow
    simp only [subLoop]
    split <;> simp [ih]

theorem subLoop_spec (as : List Char) : ∀ (bs : List Char) (borrow : Int), Digits as → Digits bs →
    bs.length ≤ as.length → (borrow = 0 ∨ borrow = 1) →
    Digits (subLoop as bs borrow) ∧
    ∃ out : Int, (out = 0 ∨ out = 1) ∧
      valLE (subLoop as bs borrow) = valLE as - valLE bs - borrow + 10 ^ as.length * out := by
  induction as with
  | nil =>
    intro bs borrow _ _ hl hb
    have hbs : bs = [] := List.eq_nil_of_length_eq_zero (by simpa using hl)
    subst hbs
    rcases hb with rfl | rfl
    · exact ⟨Digits.nil, 0, Or.inl rfl, by simp [subLoop, valLE]⟩
    · exact ⟨Digits.nil, 1, Or.inr rfl, by simp [subLoop, valLE]⟩
  | cons a as ih =>
    intro bs borrow ha hb hl hbor
    have hra := digitOf_range ha.head
    cases bs with
    | nil =>
      simp only [subLoop, List.tail_nil]
      split
      · rename_i hlt
        obtain ⟨h2, out, ho, h1⟩ := ih [] 1 ha.tail Digits.nil (by simp) (Or.inr rfl)
        refine ⟨Digits.cons (isDigit_charOf _ (by omega) (by omega)) h2, out, ho, ?_⟩
        simp only [valLE, List.length_cons, pow_succ] at h1 ⊢
        rw [h1, digitOf_charOf _ (by omega) (by omega)]
        ring
      · rename_i hlt
        obtain ⟨h2, out, ho, h1⟩ := ih [] 0 ha.tail Digits.nil (by simp) (Or.inl rfl)
        refine ⟨Digits.cons (isDigit_charOf _ (by omega) (by omega)) h2, out, ho, ?_⟩
        simp only [valLE, List.length_cons, pow_succ] at h1 ⊢
        rw [h1, digitOf_charOf _ (by omega) (by omega)]
        ring
    | cons b bs =>
      have hrb := digitOf_range hb.head
      have hl1 : bs.length ≤ as.length := by simpa using hl
      simp only [subLoop, List.tail_cons]
      split
      · rename_i hlt
        obtain ⟨h2, out, ho, h1⟩ := ih bs 1 ha.tail hb.tail hl1 (Or.inr rfl)
        refine ⟨Digits.cons (isDigit_charOf _ (by omega) (by omega)) h2, out, ho, ?_⟩
        simp only [valLE, List.length_cons, pow_succ] at h1 ⊢
        rw [h1, digitOf_charOf _ (by omega) (by omega)]
        ring
      · rename_i hlt
        obtain ⟨h2, out, ho, h1⟩ := ih bs 0 ha.tail hb.tail hl1 (Or.inl rfl)
        refine ⟨Digits.cons (isDigit_charOf _ (by omega) (by omega)) h2, out, ho, ?_⟩
        simp only [valLE, List.length_cons, pow_succ] at h1 ⊢
        rw [h1, digitOf_charOf _ (by omega) (by omega)]
        ring

/-- Schoolbook subtraction of a smaller number from a larger one leaves no
borrow: the loop writes the digits of the difference. -/
theorem subLoop_value {as bs : List Char} (ha : Digits as) (hb : Digits bs)
    (hl : bs.length ≤ as.length) (hle : valLE bs ≤ valLE as) :
    Digits (subLoop as bs 0) ∧ valLE (subLoop as bs 0) = valLE as - valLE bs := by
  obtain ⟨hd, out, ho, h⟩ := subLoop_spec as bs 0 ha hb hl (Or.inl rfl)
  refine ⟨hd, ?_⟩
  have h1 := valLE_lt hd
  have h2 := valLE_nonneg hd
  have h3 := valLE_lt ha
  have h4 := valLE_nonneg hb
  rw [subLoop_length] at h1
  rcases ho with rfl | rfl
  · rw [h]; ring
  · rw [h] at h1
    have : (10 : Int) ^ as.length * 1 = 10 ^ as.length := by ring
    omega

/-! ## Normalisation -/

theorem canonical_iff (x : BigInt) :
    Canonical x ↔ CanonDigits x.number ∧ (x.number = ['0'] → x.isNegative = false) := by
  unfold Canonical CanonDigits Digits
  tauto

theorem leadingZeros_le (s : List Char) : leadingZeros s ≤ s.length := by
  induction s with
  | nil => simp [leadingZeros]
  | cons c cs ih =>
    simp only [leadingZeros, List.length_cons]
    split <;> omega

theorem magnitude_drop_leadingZeros (s : List Char) :
    magnitude (s.drop (leadingZeros s)) = magnitude s := by
  induction s with
  | nil => rfl
  | cons c cs ih =>
    simp only [leadingZeros]
    split
    · rename_i h
      subst h
      rw [List.drop_succ_cons, ih, magnitude_cons]
      have : digitOf '0' = 0 := by decide
      rw [this]
      ring
    · rfl

theorem magnitude_of_all_zero (s : List Char) (h : leadingZeros s = s.length) :
    magnitude s = 0 := by
  have := magnitude_drop_leadingZeros s
  rw [h, List.drop_length] at this
  rw [← this]
  rfl

theorem head_drop_leadingZeros (s : List Char) :
    (s.drop (leadingZeros s)).head? ≠ some '0' := by
  induction s with
  | nil => simp [leadingZeros]
  | cons c cs ih =>
    simp only [leadingZeros]
    split
    · rw [List.drop_succ_cons]
      exact ih
    · rename_i h
      simp only [List.drop_zero, List.head?_cons, ne_eq, Option.some.injEq]
      exact h

theorem magnitude_zero_str : magnitude ['0'] = 0 := by decide

theorem value_removeLeadingZeros (x : BigInt) : value (removeLeadingZeros x) = value x := by
  unfold removeLeadingZeros
  simp only
  split
  · rename_i h
    have := magnitude_of_all_zero x.number h
    simp [value, this, magnitude_zero_str]
  · simp only [value, magnitude_drop_leadingZeros]

theorem magnitude_removeLeadingZeros (x : BigInt) :
    magnitude (removeLeadingZeros x).number = magnitude x.number := by
  unfold removeLeadingZeros
  simp only
  split
  · rename_i h
    rw [magnitude_of_all_zero x.number h, magnitude_zero_str]
  · simp only [magnitude_drop_leadingZeros]

theorem canonDigits_zero : CanonDigits ['0'] := by
  refine ⟨by simp, by decide, fun _ => rfl⟩

theorem canonical_removeLeadingZeros {x : BigInt} (h : Digits x.number) :
    Canonical (removeLeadingZeros x) := by
  rw [canonical_iff]
  unfold removeLeadingZeros
  simp only
  split
  · exact ⟨canonDigits_zero, fun _ => rfl⟩
  · rename_i hne
    have hle := leadingZeros_le x.number
    have hnz := head_drop_leadingZeros x.number
    have hnil : x.number.drop (leadingZeros x.number) ≠ [] := by
      intro h0
      have := congrArg List.length h0
      simp only [List.length_drop, List.length_nil] at this
      omega
    refine ⟨⟨hnil, h.drop _, fun h0 => absurd h0 hnz⟩, ?_⟩
    intro h0
    have h1 : x.number.drop (leadingZeros x.number) = ['0'] := h0
    rw [h1] at hnz
    exact absurd rfl hnz

theorem removeLeadingZeros_of_canonical {x : BigInt} (h : Canonical x) :
    removeLeadingZeros x = x := by
  obtain ⟨hne, _, hz, hs⟩ := h
  rcases x with ⟨s, neg⟩
  cases s with
  | nil => exact absurd rfl hne
  | cons c cs =>
    unfold removeLeadingZeros
    by_cases hc : c = '0'
    · subst hc
      have hcs : cs = [] := by
        have := hz rfl
        simpa using this
      subst hcs
      have := hs rfl
      simp only at this
      subst this
      rfl
    · simp [leadingZeros, hc]

/-! ## The magnitude comparator -/

theorem canonDigits_lower {s : List Char} (h : CanonDigits s) (hz : s ≠ ['0']) :
    10 ^ (s.length - 1) ≤ magnitude s := by
  obtain ⟨hne, hd, hh⟩ := h
  cases s with
  | nil => exact absurd rfl hne
  | cons c cs =>
    have hc : c ≠ '0' := by
      rintro rfl
      exact hz (hh rfl)
    have hc0 : digitOf c ≠ 0 := fun h0 => hc ((eq_zero_char_iff c).mpr h0)
    have hr := digitOf_range hd.head
    have hm := magnitude_nonneg hd.tail
    have hp : (0 : Int) < 10 ^ cs.length := by positivity
    rw [magnitude_cons]
    simp only [List.length_cons, Nat.add_sub_cancel]
    have h1 : (1 : Int) ≤ digitOf c := by omega
    nlinarith

theorem canonDigits_pos {s : List Char} (h : CanonDigits s) (hz : s ≠ ['0']) :
    0 < magnitude s := by
  have h1 := canonDigits_lower h hz
  have hp : (0 : Int) < 10 ^ (s.length - 1) := by positivity
  omega

theorem strLt_iff (s : List Char) : ∀ t : List Char, Digits s → Digits t →
    s.length = t.length → (strLt s t = true ↔ magnitude s < magnitude t) := by
  induction s with
  | nil =>
    intro t _ _ hl
    have ht : t = [] := List.eq_nil_of_length_eq_zero hl.symm
    subst ht
    simp [strLt, magnitude]
  | cons a as ih =>
    intro t hs ht hl
    cases t with
    | nil => simp at hl
    | cons b bs =>
      have hl1 : as.length = bs.length := by simpa using hl
      have hi := ih bs hs.tail ht.tail hl1
      have hma := magnitude_nonneg hs.tail
      have hmb := magnitude_nonneg ht.tail
      have hla := magnitude_lt hs.tail
      have hlb := magnitude_lt ht.tail
      rw [hl1] at hla
      have hp : (0 : Int) < 10 ^ bs.length := by positivity
      rw [magnitude_cons, magnitude_cons, hl1]
      simp only [strLt]
      have hab : (a.toNat < b.toNat ↔ digitOf a < digitOf b) := by
        unfold digitOf
        omega
      have hba : (b.toNat < a.toNat ↔ digitOf b < digitOf a) := by
        unfold digitOf
        omega
      by_cases h1 : a.toNat < b.toNat
      · simp only [h1, if_true, true_iff]
        have h2 : digitOf a + 1 ≤ digitOf b := by have := hab.mp h1; omega
        nlinarith
      · by_cases h2 : b.toNat < a.toNat
        · simp only [h1, h2, if_false, if_true, Bool.false_eq_true, false_iff, not_lt]
          have h3 : digitOf b + 1 ≤ digitOf a := by have := hba.mp h2; omega
          nlinarith
        · simp only [h1, h2, if_false]
          have h3 : digitOf a = digitOf b := by
            have := mt hab.mpr h1
            have := mt hba.mpr h2
            omega
          rw [hi, h3]
          constructor
          · intro h; linarith
          · intro h; linarith

theorem compareMagnitude_spec {x y : BigInt} (hx : CanonDigits x.number)
    (hy : CanonDigits y.number) :
    compareMagnitude x y =
      if magnitude x.number < magnitude y.number then -1
      else if magnitude x.number = magnitude y.number then 0 else 1 := by
  have key : ∀ s t : List Char, CanonDigits s → CanonDigits t → t.length < s.length →
      magnitude t < magnitude s := by
    intro s t hs ht hl
    have h1 : 1 ≤ t.length := by
      rcases t with _ | ⟨c, cs⟩
      · exact absurd rfl ht.1
      · simp
    have hs0 : s ≠ ['0'] := by
      intro h0
      rw [h0] at hl
      have : (['0'] : List Char).length = 1 := rfl
      omega
    have h2 := canonDigits_lower hs hs0
    have h3 := magnitude_lt ht.2.1
    have h4 : (10 : Int) ^ t.length ≤ 10 ^ (s.length - 1) :=
      pow_le_pow_right₀ (by norm_num) (by omega)
    omega
  unfold compareMagnitude
  by_cases h1 : x.number.length > y.number.length
  · have := key _ _ hx hy h1
    rw [if_pos h1, if_neg (by omega), if_neg (by omega)]
  · rw [if_neg h1]
    by_cases h2 : x.number.length < y.number.length
    · have := key _ _ hy hx h2
      rw [if_pos h2, if_pos this]
    · rw [if_neg h2]
      have hl : x.number.length = y.number.length := by omega
      have e1 := strLt_iff x.number y.number hx.2.1 hy.2.1 hl
      have e2 := strLt_iff y.number x.number hy.2.1 hx.2.1 hl.symm
      by_cases h3 : magnitude y.number < magnitude x.number
      · rw [if_pos (e2.mpr h3), if_neg (by omega), if_neg (by omega)]
      · have n2 : ¬ strLt y.number x.number = true := fun h => h3 (e2.mp h)
        rw [if_neg n2]
        by_cases h4 : magnitude x.number < magnitude y.number
        · rw [if_pos (e1.mpr h4), if_pos h4]
        · have n1 : ¬ strLt x.number y.number = true := fun h => h4 (e1.mp h)
          rw [if_neg n1, if_neg h4, if_pos (by omega)]

theorem eq_of_strLt_false (s : List Char) : ∀ t : List Char, s.length = t.length →
    strLt s t = false → strLt t s = false → s = t := by
  induction s with
  | nil =>
    intro t hl _ _
    exact (List.eq_nil_of_length_eq_zero hl.symm).symm
  | cons a as ih =>
    intro t hl h1 h2
    cases t with
    | nil => simp at hl
    | cons b bs =>
      simp only [strLt] at h1 h2
      by_cases hab : a.toNat < b.toNat
      · simp [hab] at h1
      · by_cases hba : b.toNat < a.toNat
        · simp [hba] at h2
        · simp only [hab, hba, if_false] at h1 h2
          have he : a = b := by
            apply Char.ext
            apply UInt32.ext
            show a.toNat = b.toNat
            omega
          rw [he, ih bs (by simpa using hl) h1 h2]

/-- Canonical magnitudes are determined by the number they write. -/
theorem canonDigits_inj {s t : List Char} (hs : CanonDigits s) (ht : CanonDigits t)
    (h : magnitude s = magnitude t) : s = t := by
  have hc := compareMagnitude_spec (x := ⟨s, false⟩) (y := ⟨t, false⟩) hs ht
  simp only [h, lt_irrefl, if_false, if_true] at hc
  unfold compareMagnitude at hc
  simp only at hc
  by_cases h1 : s.length > t.length
  · rw [if_pos h1] at hc
    exact absurd hc (by decide)
  · rw [if_neg h1] at hc
    by_cases h2 : s.length < t.length
    · rw [if_pos h2] at hc
      exact absurd hc (by decide)
    · rw [if_neg h2] at hc
      by_cases h3 : strLt t s = true
      · rw [if_pos h3] at hc
        exact absurd hc (by decide)
      · rw [if_neg h3] at hc
        by_cases h4 : strLt s t = true
        · rw [if_pos h4] at hc
          exact absurd hc (by decide)
        · exact eq_of_strLt_false s t (by omega) (by simpa using h4) (by simpa using h3)

/-- Canonical values are determined by the integer they stand for. -/
theorem canonical_inj {x y : BigInt} (hx : Canonical x) (hy : Canonical y)
    (h : value x = value y) : x = y := by
  rw [canonical_iff] at hx hy
  obtain ⟨cx, zx⟩ := hx
  obtain ⟨cy, zy⟩ := hy
  have px : x.number ≠ ['0'] → 0 < magnitude x.number := canonDigits_pos cx
  have py : y.number ≠ ['0'] → 0 < magnitude y.number := canonDigits_pos cy
  have nx := magnitude_nonneg cx.2.1
  have ny := magnitude_nonneg cy.2.1
  rcases x with ⟨s, a⟩
  rcases y with ⟨t, b⟩
  simp only at *
  by_cases hs : s = ['0']
  · subst hs
    have ha := zx rfl
    subst ha
    simp only [value, magnitude_zero_str, Bool.false_eq_true, if_false] at h
    by_cases ht : t = ['0']
    · subst ht
      rw [zy rfl]
    · have := py ht
      exfalso
      split at h <;> omega
  · have p1 := px hs
    by_cases ht : t = ['0']
    · subst ht
      have hb := zy rfl
      subst hb
      simp only [value, magnitude_zero_str, Bool.false_eq_true, if_false] at h
      exfalso
      split at h <;> omega
    · have p2 := py ht
      simp only [value] at h
      cases a <;> cases b <;> simp only [Bool.false_eq_true, if_false, if_true] at h
      · rw [canonDigits_inj cx cy h]
      · omega
      · omega
      · rw [canonDigits_inj cx cy (by omega)]

/-! ## Signed addition and subtraction -/

theorem ofInt64_zero : ofInt64 0 = ⟨['0'], false⟩ := rfl

theorem canonical_zero : Canonical ⟨['0'], false⟩ := by decide

theorem value_zero : value ⟨['0'], false⟩ = 0 := by decide

theorem value_opNeg (x : BigInt) : value (opNeg x) = - value x := by
  unfold opNeg
  split
  · cases hx : x.isNegative <;> simp [value, hx]
  · rename_i h0
    have h1 : x.number = ['0'] := by simpa using h0
    simp [value, h1, magnitude_zero_str]

theorem canonical_opNeg {x : BigInt} (h : Canonical x) : Canonical (opNeg x) := by
  unfold opNeg
  split
  · rename_i h0
    obtain ⟨h1, h2, h3, _⟩ := h
    exact ⟨h1, h2, h3, fun h4 => absurd h4 h0⟩
  · exact h

theorem opNeg_isNegative {x : BigInt} (h : x.number ≠ ['0']) :
    (opNeg x).isNegative = !x.isNegative := by
  simp [opNeg, h]

theorem opNeg_number (x : BigInt) : (opNeg x).number = x.number := by
  unfold opNeg
  split <;> rfl

theorem opNeg_zero {x : BigInt} (h : x.number = ['0']) : opNeg x = x := by
  simp [opNeg, h]

theorem compareMagnitude_pos_length {x y : BigInt} (h : compareMagnitude x y > 0) :
    y.number.length ≤ x.number.length := by
  unfold compareMagnitude at h
  by_cases h1 : x.number.length > y.number.length
  · omega
  · rw [if_neg h1] at h
    by_cases h2 : x.number.length < y.number.length
    · rw [if_pos h2] at h
      exact absurd h (by decide)
    · omega

theorem compareMagnitude_neg_length {x y : BigInt} (h : compareMagnitude x y < 0) :
    x.number.length ≤ y.number.length := by
  unfold compareMagnitude at h
  by_cases h1 : x.number.length > y.number.length
  · rw [if_pos h1] at h
    exact absurd h (by decide)
  · omega

/-- The same-sign branch of `operator+=`: one call, no recursion. -/
theorem opAddAssign_same (fuel : Nat) {x y : BigInt} (hs : x.isNegative = y.isNegative)
    (hx : Digits x.number) (hy : Digits y.number) :
    ∃ r, opAddAssign (fuel + 1) x y = .ok r ∧ Canonical r ∧ value r = value x + value y ∧
      magnitude r.number = magnitude x.number + magnitude y.number := by
  obtain ⟨hv, hd⟩ := addLoop_spec x.number.reverse y.number.reverse 0 hx.reverse hy.reverse
    (Or.inl rfl)
  rw [← magnitude_eq_valLE, ← magnitude_eq_valLE, ← magnitude_reverse] at hv
  refine ⟨_, by rw [opAddAssign, if_pos hs], canonical_removeLeadingZeros hd.reverse, ?_, ?_⟩
  · rw [value_removeLeadingZeros]
    simp only [value, hv, ← hs]
    split <;> ring
  · rw [magnitude_removeLeadingZeros, hv]
    ring

/-- The same-sign branch of `operator-=`: one call, no recursion. -/
theorem opSubAssign_same (fuel : Nat) {x y : BigInt} (hs : x.isNegative = y.isNegative)
    (hx : CanonDigits x.number) (hy : CanonDigits y.number) :
    ∃ r, opSubAssign (fuel + 1) x y = .ok r ∧ Canonical r ∧ value r = value x - value y ∧
      magnitude r.number = |magnitude x.number - magnitude y.number| := by
  have hc := compareMagnitude_spec hx hy
  have hs1 : ¬ (x.isNegative ≠ y.isNegative) := by simp [hs]
  rw [opSubAssign, if_neg hs1]
  simp only
  by_cases h1 : magnitude x.number < magnitude y.number
  · rw [if_pos h1] at hc
    have hlen := compareMagnitude_neg_length (x := x) (y := y) (by rw [hc]; decide)
    obtain ⟨hd, hv⟩ := @subLoop_value y.number.reverse x.number.reverse
      hy.2.1.reverse hx.2.1.reverse (by simpa using hlen)
      (by rw [← magnitude_eq_valLE, ← magnitude_eq_valLE]; omega)
    rw [← magnitude_eq_valLE, ← magnitude_eq_valLE, ← magnitude_reverse] at hv
    rw [hc]
    simp only [show ((-1 : Int) = 0) = False from by simp, if_false,
      show ((-1 : Int) > 0) = False from by simp, show ((-1 : Int) < 0) = True from by simp,
      decide_True, decide_False, Bool.true_and, Bool.false_and, Bool.or_false]
    refine ⟨_, rfl, canonical_removeLeadingZeros hd.reverse, ?_, ?_⟩
    · rw [value_removeLeadingZeros]
      simp only [value, hv, ← hs]
      cases x.isNegative <;> simp
      ring
    · rw [magnitude_removeLeadingZeros, hv, abs_of_neg (by omega)]
      ring
  · rw [if_neg h1] at hc
    by_cases h2 : magnitude x.number = magnitude y.number
    · rw [if_pos h2] at hc
      rw [hc]
      simp only [if_true, ofInt64_zero]
      refine ⟨_, rfl, canonical_zero, ?_, ?_⟩
      · rw [value_zero]
        simp only [value, h2, ← hs]
        split <;> ring
      · rw [magnitude_zero_str, h2]
        simp
    · rw [if_neg h2] at hc
      have hlen := compareMagnitude_pos_length (x := x) (y := y) (by rw [hc]; decide)
      obtain ⟨hd, hv⟩ := @subLoop_value x.number.reverse y.number.reverse
        hx.2.1.reverse hy.2.1.reverse (by simpa using hlen)
        (by rw [← magnitude_eq_valLE, ← magnitude_eq_valLE]; omega)
      rw [← magnitude_eq_valLE, ← magnitude_eq_valLE, ← magnitude_reverse] at hv
      rw [hc]
      simp only [show ((1 : Int) = 0) = False from by simp, if_false, if_true,
        show ((1 : Int) > 0) = True from by simp, show ((1 : Int) < 0) = False from by simp,
        decide_True, decide_False, Bool.true_and, Bool.false_and, Bool.false_or]
      refine ⟨_, rfl, canonical_removeLeadingZeros hd.reverse, ?_, ?_⟩
      · rw [value_removeLeadingZeros]
        simp only [value, hv, ← hs]
        split <;> ring
      · rw [magnitude_removeLeadingZeros, hv, abs_of_pos (by omega)]

/-- The two operators call each other for ever when the signs differ and the
right operand is zero: unary minus leaves zero unchanged, so each call hands the
same pair of operands to the other operator. -/
theorem opAddSub_outOfFuel {x y : BigInt} (hs : x.isNegative ≠ y.isNegative)
    (hy : y.number = ['0']) (fuel : Nat) :
    opAddAssign fuel x y = .outOfFuel ∧ opSubAssign fuel x y = .outOfFuel := by
  induction fuel with
  | zero => exact ⟨by rw [opAddAssign], by rw [opSubAssign]⟩
  | succ n ih =>
    constructor
    · rw [opAddAssign, if_neg hs, opNeg_zero hy, ih.2]
    · rw [opSubAssign, if_pos hs, opNeg_zero hy, ih.1]

/-- Signed addition is correct whenever it is not the looping case (a negative
left operand with a zero right operand). -/
theorem opAddAssign_value (fuel : Nat) {x y : BigInt} (hx : Canonical x) (hy : Canonical y)
    (hne : ¬ (x.isNegative = true ∧ y.number = ['0'])) :
    ∃ r, opAddAssign (fuel + 2) x y = .ok r ∧ Canonical r ∧ value r = value x + value y := by
  by_cases hs : x.isNegative = y.isNegative
  · obtain ⟨r, h1, h2, h3, _⟩ := opAddAssign_same (fuel + 1) hs hx.2.1 hy.2.1
    exact ⟨r, h1, h2, h3⟩
  · have hy0 : y.number ≠ ['0'] := by
      intro h0
      have := hy.2.2.2 h0
      rw [this] at hs
      exact hne ⟨by simpa using hs, h0⟩
    have hs1 : x.isNegative = (opNeg y).isNegative := by
      rw [opNeg_isNegative hy0]
      cases hxn : x.isNegative <;> cases hyn : y.isNegative <;> simp_all
    have hcy := canonical_opNeg hy
    obtain ⟨r, h1, h2, h3, _⟩ := opSubAssign_same fuel hs1 ((canonical_iff x).mp hx).1
      ((canonical_iff _).mp hcy).1
    refine ⟨r, ?_, h2, ?_⟩
    · rw [opAddAssign, if_neg hs, h1]
      simp only [removeLeadingZeros_of_canonical h2]
    · rw [h3, value_opNeg y]
      ring

/-- Signed subtraction is correct whenever it is not the looping case. -/
theorem opSubAssign_value (fuel : Nat) {x y : BigInt} (hx : Canonical x) (hy : Canonical y)
    (hne : ¬ (x.isNegative = true ∧ y.number = ['0'])) :
    ∃ r, opSubAssign (fuel + 2) x y = .ok r ∧ Canonical r ∧ value r = value x - value y := by
  by_cases hs : x.isNegative = y.isNegative
  · obtain ⟨r, h1, h2, h3, _⟩ := opSubAssign_same (fuel + 1) hs ((canonical_iff x).mp hx).1
      ((canonical_iff y).mp hy).1
    exact ⟨r, h1, h2, h3⟩
  · have hy0 : y.number ≠ ['0'] := by
      intro h0
      have := hy.2.2.2 h0
      rw [this] at hs
      exact hne ⟨by simpa using hs, h0⟩
    have hs1 : x.isNegative = (opNeg y).isNegative := by
      rw [opNeg_isNegative hy0]
      cases hxn : x.isNegative <;> cases hyn : y.isNegative <;> simp_all
    have hcy := canonical_opNeg hy
    obtain ⟨r, h1, h2, h3, _⟩ := opAddAssign_same fuel hs1 hx.2.1 hcy.2.1
    refine ⟨r, ?_, h2, ?_⟩
    · rw [opSubAssign, if_pos hs, h1]
    · rw [h3, value_opNeg y]
      ring

/-! ## Multiplication -/

theorem getD_isDigit {l : List Char} (h : Digits l) (k : Nat) : (l.getD k '0').isDigit = true := by
  rw [List.getD_eq_getElem?_getD]
  cases hk : l[k]? with
  | none => decide
  | some c => exact h c (List.getElem?_mem hk)

theorem getD_set_ne (l : List Char) {p q : Nat} (h : q ≠ p) (c d : Char) :
    (l.set q c).getD p d = l.getD p d := by
  rw [List.getD_eq_getElem?_getD, List.getD_eq_getElem?_getD, List.getElem?_set_ne h]

theorem Digits.set {l : List Char} (h : Digits l) (q : Nat) {c : Char} (hc : c.isDigit = true) :
    Digits (l.set q c) := by
  intro d hd
  rcases List.mem_or_eq_of_mem_set hd with h1 | rfl
  · exact h d h1
  · exact hc

theorem magnitude_set (l : List Char) : ∀ (p : Nat) (c : Char) (e : Nat), l.length = p + 1 + e →
    magnitude (l.set p c) = magnitude l + (digitOf c - digitOf (l.getD p '0')) * 10 ^ e := by
  induction l with
  | nil =>
    intro p c e h
    simp only [List.length_nil] at h
    omega
  | cons x xs ih =>
    intro p c e h
    cases p with
    | zero =>
      have he : xs.length = e := by simpa [Nat.add_comm] using h
      rw [List.set_cons_zero, List.getD_cons_zero, magnitude_cons, magnitude_cons, he]
      ring
    | succ q =>
      have he : xs.length = q + 1 + e := by
        simp only [List.length_cons] at h
        omega
      rw [List.set_cons_succ, List.getD_cons_succ, magnitude_cons, magnitude_cons,
        List.length_set, ih q c e he]
      ring

theorem magnitude_take_succ (l : List Char) {j : Nat} (h : j < l.length) :
    magnitude (l.take (j + 1)) = 10 * magnitude (l.take j) + digitOf (l.getD j '0') := by
  rw [List.take_succ, List.getElem?_eq_getElem h, List.getD_eq_getElem l '0' h]
  exact magnitude_append _ _

theorem mulInner_spec (n1 n2 : List Char) (i a : Nat) (hi : n1.length = i + 1 + a)
    (hd1 : Digits n1) (hd2 : Digits n2) :
    ∀ (j b : Nat) (res : List Char) (carry : Int), n2.length = j + b → Digits res →
      res.length = n1.length + n2.length → 0 ≤ carry → carry ≤ 9 →
      (∀ p, p ≤ i → res.getD p '0' = '0') →
      Digits (mulInner n1 n2 i j res carry).1 ∧
      (mulInner n1 n2 i j res carry).1.length = n1.length + n2.length ∧
      0 ≤ (mulInner n1 n2 i j res carry).2 ∧ (mulInner n1 n2 i j res carry).2 ≤ 9 ∧
      (∀ p, p ≤ i → (mulInner n1 n2 i j res carry).1.getD p '0' = '0') ∧
      magnitude (mulInner n1 n2 i j res carry).1
          + (mulInner n1 n2 i j res carry).2 * 10 ^ (a + n2.length)
        = magnitude res + carry * 10 ^ (a + b)
          + digitOf (n1.getD i '0') * 10 ^ a * magnitude (n2.take j) * 10 ^ b := by
  intro j
  induction j with
  | zero =>
    intro b res carry hb hd hl h0 h9 hz
    have : b = n2.length := by omega
    subst this
    refine ⟨hd, hl, h0, h9, hz, ?_⟩
    simp [mulInner, magnitude]
  | succ j ih =>
    intro b res carry hb hd hl h0 h9 hz
    have r1 := digitOf_range (getD_isDigit hd1 i)
    have r2 := digitOf_range (getD_isDigit hd2 j)
    have r3 := digitOf_range (getD_isDigit hd (i + j + 1))
    have hprod : 0 ≤ digitOf (n1.getD i '0') * digitOf (n2.getD j '0') :=
      mul_nonneg r1.1 r2.1
    have hprod9 : digitOf (n1.getD i '0') * digitOf (n2.getD j '0') ≤ 81 := by nlinarith
    have hp0 : 0 ≤ digitOf (n1.getD i '0') * digitOf (n2.getD j '0')
        + digitOf (res.getD (i + j + 1) '0') + carry := by omega
    have hdig : (charOf ((digitOf (n1.getD i '0') * digitOf (n2.getD j '0')
        + digitOf (res.getD (i + j + 1) '0') + carry) % 10 + 48)).isDigit = true :=
      isDigit_charOf _ (by omega) (by omega)
    have hlen : res.length = (i + j + 1) + 1 + (a + b) := by omega
    obtain ⟨g1, g2, g3, g4, g5, g6⟩ := ih (b + 1)
      (res.set (i + j + 1) (charOf ((digitOf (n1.getD i '0') * digitOf (n2.getD j '0')
        + digitOf (res.getD (i + j + 1) '0') + carry) % 10 + 48)))
      ((digitOf (n1.getD i '0') * digitOf (n2.getD j '0')
        + digitOf (res.getD (i + j + 1) '0') + carry) / 10)
      (by omega) (hd.set _ hdig) (by rw [List.length_set]; exact hl) (by omega) (by omega)
      (fun p hp => by rw [getD_set_ne _ (by omega)]; exact hz p hp)
    simp only [mulInner, tdiv_ten hp0, tmod_ten hp0]
    refine ⟨g1, g2, g3, g4, g5, ?_⟩
    rw [g6, magnitude_set res (i + j + 1) _ (a + b) hlen, digitOf_charOf _ (by omega) (by omega),
      magnitude_take_succ n2 (by omega)]
    have hsplit := Int.emod_add_ediv (digitOf (n1.getD i '0') * digitOf (n2.getD j '0')
        + digitOf (res.getD (i + j + 1) '0') + carry) 10
    generalize (digitOf (n1.getD i '0') * digitOf (n2.getD j '0')
        + digitOf (res.getD (i + j + 1) '0') + carry) % 10 = lo at hsplit ⊢
    generalize (digitOf (n1.getD i '0') * digitOf (n2.getD j '0')
        + digitOf (res.getD (i + j + 1) '0') + carry) / 10 = hi at hsplit ⊢
    have hc : carry = lo + 10 * hi - digitOf (n1.getD i '0') * digitOf (n2.getD j '0')
        - digitOf (res.getD (i + j + 1) '0') := by omega
    rw [hc]
    ring

theorem mulOuter_spec (n1 n2 : List Char) (hd1 : Digits n1) (hd2 : Digits n2) :
    ∀ (i a : Nat) (res : List Char), n1.length = i + a → Digits res →
      res.length = n1.length + n2.length → (∀ p, p < i → res.getD p '0' = '0') →
      Digits (mulOuter n1 n2 i res) ∧
      magnitude (mulOuter n1 n2 i res)
        = magnitude res + magnitude (n1.take i) * 10 ^ a * magnitude n2 := by
  intro i
  induction i with
  | zero =>
    intro a res _ hd _ _
    exact ⟨hd, by simp [mulOuter, magnitude]⟩
  | succ i ih =>
    intro a res ha hd hl hz
    obtain ⟨g1, g2, g3, g4, g5, g6⟩ := mulInner_spec n1 n2 i a (by omega) hd1 hd2 n2.length 0
      res 0 (by omega) hd hl (le_refl 0) (by decide) (fun p hp => hz p (by omega))
    have hzi : (mulInner n1 n2 i n2.length res 0).1.getD i '0' = '0' := g5 i (le_refl i)
    have hd0 : digitOf '0' = 0 := by decide
    have hdig : (charOf ((digitOf ((mulInner n1 n2 i n2.length res 0).1.getD i '0')
        + (mulInner n1 n2 i n2.length res 0).2) + 48)).isDigit = true := by
      rw [hzi, hd0]
      exact isDigit_charOf _ (by omega) (by omega)
    obtain ⟨k1, k2⟩ := ih (a + 1)
      ((mulInner n1 n2 i n2.length res 0).1.set i
        (charOf ((digitOf ((mulInner n1 n2 i n2.length res 0).1.getD i '0')
          + (mulInner n1 n2 i n2.length res 0).2) + 48)))
      (by omega) (g1.set _ hdig) (by rw [List.length_set]; exact g2)
      (fun p hp => by rw [getD_set_ne _ (by omega)]; exact g5 p (by omega))
    simp only [mulOuter]
    refine ⟨k1, ?_⟩
    rw [k2, magnitude_set _ i _ (a + n2.length) (by rw [g2]; omega), hzi, hd0,
      digitOf_charOf _ (by omega) (by omega), magnitude_take_succ n1 (by omega)]
    simp only [List.take_length, Nat.add_zero, pow_zero, mul_one, zero_mul, add_zero] at g6
    have hm : magnitude (mulInner n1 n2 i n2.length res 0).1
        = magnitude res + digitOf (n1.getD i '0') * 10 ^ a * magnitude n2
          - (mulInner n1 n2 i n2.length res 0).2 * 10 ^ (a + n2.length) := by
      rw [← g6]
      ring
    rw [hm]
    ring

theorem magnitude_replicate_zero (n : Nat) : magnitude (List.replicate n '0') = 0 := by
  induction n with
  | zero => rfl
  | succ n ih =>
    rw [List.replicate_succ, magnitude_cons, ih]
    have : digitOf '0' = 0 := by decide
    rw [this]
    ring

theorem mulOuter_value {n1 n2 : List Char} (hd1 : Digits n1) (hd2 : Digits n2) :
    Digits (mulOuter n1 n2 n1.length (List.replicate (n1.length + n2.length) '0')) ∧
    magnitude (mulOuter n1 n2 n1.length (List.replicate (n1.length + n2.length) '0'))
      = magnitude n1 * magnitude n2 := by
  have hd : Digits (List.replicate (n1.length + n2.length) '0') := by
    intro c hc
    rw [List.eq_of_mem_replicate hc]
    decide
  have hz : ∀ p, p < n1.length →
      (List.replicate (n1.length + n2.length) '0').getD p '0' = '0' := by
    intro p _
    rw [List.getD_eq_getElem?_getD, List.getElem?_replicate]
    split <;> rfl
  obtain ⟨h1, h2⟩ := mulOuter_spec n1 n2 hd1 hd2 n1.length 0 _ (by omega) hd
    (by simp) hz
  refine ⟨h1, ?_⟩
  rw [h2, magnitude_replicate_zero, List.take_length]
  ring

theorem value_of_zero_number {x : BigInt} (h : x.number = ['0']) : value x = 0 := by
  simp [value, h, magnitude_zero_str]

/-- The product: canonical, of the right value, and of the right sign. -/
theorem opMul_spec {x y : BigInt} (hx : Canonical x) (hy : Canonical y) :
    Canonical (opMul x y) ∧ value (opMul x y) = value x * value y ∧
    magnitude (opMul x y).number = magnitude x.number * magnitude y.number := by
  unfold opMul
  split
  · rename_i h0
    rw [ofInt64_zero]
    refine ⟨canonical_zero, ?_, ?_⟩
    · rcases h0 with h0 | h0
      · rw [value_zero, value_of_zero_number h0]; ring
      · rw [value_zero, value_of_zero_number h0]; ring
    · rcases h0 with h0 | h0
      · rw [h0, magnitude_zero_str]; ring
      · rw [h0, magnitude_zero_str]; ring
  · obtain ⟨h1, h2⟩ := mulOuter_value hx.2.1 hy.2.1
    refine ⟨canonical_removeLeadingZeros h1, ?_, ?_⟩
    · rw [value_removeLeadingZeros]
      simp only [value, h2]
      cases x.isNegative <;> cases y.isNegative <;> simp
    · rw [magnitude_removeLeadingZeros, h2]

/-! ## Division -/

theorem canonDigits_eq_zero {s : List Char} (h : CanonDigits s) (h0 : magnitude s = 0) :
    s = ['0'] := by
  by_contra hne
  have := canonDigits_pos h hne
  omega

theorem isNegative_of_value_nonneg {x : BigInt} (h : Canonical x) (h0 : 0 ≤ value x) :
    x.isNegative = false := by
  rw [canonical_iff] at h
  cases hx : x.isNegative with
  | false => rfl
  | true =>
    have hm := magnitude_nonneg h.1.2.1
    simp only [value, hx, if_true] at h0
    have := h.2 (canonDigits_eq_zero h.1 (by omega))
    rw [hx] at this
    exact this

theorem value_of_nonneg {x : BigInt} (h : x.isNegative = false) :
    value x = magnitude x.number := by
  simp [value, h]

/-- The counting loop of the long division: from a remainder `r` below
`(t + 1) * divisor` it returns the remainder `r mod divisor` and adds
`r / divisor` to `count`. -/
theorem divCount_spec {divisor : BigInt} (hdc : Canonical divisor)
    (hdn : divisor.isNegative = false) (hdp : 0 < magnitude divisor.number) :
    ∀ (t fuel : Nat) (r : BigInt) (count : Int), t < fuel → Canonical r → r.isNegative = false →
      magnitude r.number < t * magnitude divisor.number + magnitude divisor.number →
      ∃ r1, divCount fuel r divisor count
            = .ok (r1, count + magnitude r.number / magnitude divisor.number) ∧
        Canonical r1 ∧ r1.isNegative = false ∧
        magnitude r1.number = magnitude r.number % magnitude divisor.number := by
  intro t
  induction t with
  | zero =>
    intro fuel r count hf hr hn hlt
    obtain ⟨f, rfl⟩ : ∃ f, fuel = f + 1 := ⟨fuel - 1, by omega⟩
    have hm := magnitude_nonneg hr.2.1
    have hlt1 : magnitude r.number < magnitude divisor.number := by
      simpa using hlt
    have hc := compareMagnitude_spec ((canonical_iff r).mp hr).1 ((canonical_iff _).mp hdc).1
    rw [if_pos hlt1] at hc
    refine ⟨r, ?_, hr, hn, (Int.emod_eq_of_lt hm hlt1).symm⟩
    rw [divCount, hc, if_neg (by decide), Int.ediv_eq_zero_of_lt hm hlt1, add_zero]
  | succ t ih =>
    intro fuel r count hf hr hn hlt
    obtain ⟨f, rfl⟩ : ∃ f, fuel = f + 1 := ⟨fuel - 1, by omega⟩
    have hm := magnitude_nonneg hr.2.1
    have hc := compareMagnitude_spec ((canonical_iff r).mp hr).1 ((canonical_iff _).mp hdc).1
    by_cases hlt1 : magnitude r.number < magnitude divisor.number
    · rw [if_pos hlt1] at hc
      refine ⟨r, ?_, hr, hn, (Int.emod_eq_of_lt hm hlt1).symm⟩
      rw [divCount, hc, if_neg (by decide), Int.ediv_eq_zero_of_lt hm hlt1, add_zero]
    · obtain ⟨g, rfl⟩ : ∃ g, f = g + 1 := ⟨f - 1, by omega⟩
      obtain ⟨r1, e1, c1, v1, m1⟩ := opSubAssign_same g (hn.trans hdn.symm)
        ((canonical_iff r).mp hr).1 ((canonical_iff _).mp hdc).1
      have hge : magnitude divisor.number ≤ magnitude r.number := by omega
      rw [abs_of_nonneg (by omega)] at m1
      have n1 : r1.isNegative = false := by
        apply isNegative_of_value_nonneg c1
        rw [v1, value_of_nonneg hn, value_of_nonneg hdn]
        omega
      have hlt2 : magnitude r1.number
          < t * magnitude divisor.number + magnitude divisor.number := by
        rw [m1]
        push_cast at hlt
        linarith
      obtain ⟨r2, e2, c2, n2, m2⟩ := ih (g + 1) r1 (count + 1) (by omega) c1 n1 hlt2
      have hsplit : magnitude r.number
          = magnitude r1.number + 1 * magnitude divisor.number := by
        rw [m1]
        ring
      have hne : magnitude divisor.number ≠ 0 := by omega
      refine ⟨r2, ?_, c2, n2, ?_⟩
      · have hcge : compareMagnitude r divisor ≥ 0 := by
          rw [hc, if_neg hlt1]
          split <;> decide
        rw [divCount, if_pos hcge, e1]
        simp only
        rw [e2, hsplit, Int.add_mul_ediv_right _ _ hne]
        congr 2
        ring
      · rw [m2, hsplit, Int.add_mul_emod_self]

theorem canonical_default : Canonical BigInt.default := by decide

/-- The digit loop of the long division: it appends to `quotient_str` the
digits of the quotient of the number still to be divided. -/
theorem divLoop_spec {divisor : BigInt} (hdc : Canonical divisor)
    (hdn : divisor.isNegative = false) (hdp : 0 < magnitude divisor.number)
    (fuel : Nat) (hf : 10 ≤ fuel) (ds : List Char) :
    ∀ (r : BigInt) (q : List Char), Digits ds → Canonical r → r.isNegative = false →
      magnitude r.number < magnitude divisor.number → Digits q →
      ∃ qf, divLoop fuel divisor ds r q = .ok qf ∧ Digits qf ∧
        magnitude qf = magnitude q * 10 ^ ds.length
          + (magnitude r.number * 10 ^ ds.length + magnitude ds) / magnitude divisor.number := by
  induction ds with
  | nil =>
    intro r q _ hr _ hlt hq
    have hm := magnitude_nonneg hr.2.1
    refine ⟨q, rfl, hq, ?_⟩
    simp only [List.length_nil, pow_zero, mul_one]
    rw [show magnitude [] = 0 from rfl, add_zero, Int.ediv_eq_zero_of_lt hm hlt, add_zero]
  | cons d ds ih =>
    intro r q hds hr hn hlt hq
    have hm := magnitude_nonneg hr.2.1
    have hdr := digitOf_range hds.head
    have happ : Digits (r.number ++ [d]) :=
      Digits.append hr.2.1 (Digits.cons hds.head Digits.nil)
    have c0 : Canonical (removeLeadingZeros ⟨r.number ++ [d], r.isNegative⟩) :=
      canonical_removeLeadingZeros happ
    have m0 : magnitude (removeLeadingZeros ⟨r.number ++ [d], r.isNegative⟩).number
        = 10 * magnitude r.number + digitOf d := by
      rw [magnitude_removeLeadingZeros, magnitude_append]
    have n0 : (removeLeadingZeros ⟨r.number ++ [d], r.isNegative⟩).isNegative = false := by
      unfold removeLeadingZeros
      simp only
      split
      · rfl
      · exact hn
    obtain ⟨r1, e1, c1, n1, m1⟩ := divCount_spec hdc hdn hdp 9 fuel
      (removeLeadingZeros ⟨r.number ++ [d], r.isNegative⟩) 0 (by omega) c0 n0
      (by rw [m0]; push_cast; omega)
    rw [m0] at e1 m1
    have hq0 : 0 ≤ (10 * magnitude r.number + digitOf d) / magnitude divisor.number :=
      Int.ediv_nonneg (by omega) (by omega)
    have hq9 : (10 * magnitude r.number + digitOf d) / magnitude divisor.number ≤ 9 := by
      have : (10 * magnitude r.number + digitOf d) / magnitude divisor.number < 10 :=
        Int.ediv_lt_of_lt_mul hdp (by omega)
      omega
    have hlt1 : magnitude r1.number < magnitude divisor.number := by
      rw [m1]
      exact Int.emod_lt_of_pos _ hdp
    have hq1 : Digits (q ++ [charOf (0
        + (10 * magnitude r.number + digitOf d) / magnitude divisor.number + 48)]) := by
      apply hq.append
      apply Digits.cons _ Digits.nil
      rw [zero_add]
      exact isDigit_charOf _ hq0 hq9
    obtain ⟨qf, e2, d2, m2⟩ := ih r1 _ hds.tail c1 n1 hlt1 hq1
    refine ⟨qf, ?_, d2, ?_⟩
    · rw [divLoop, e1]
      simp only
      exact e2
    · rw [m2, magnitude_append, zero_add, digitOf_charOf _ hq0 hq9, m1, magnitude_cons]
      simp only [List.length_cons, pow_succ]
      have hne : magnitude divisor.number ≠ 0 := by omega
      have hsplit := Int.emod_add_ediv (10 * magnitude r.number + digitOf d)
        (magnitude divisor.number)
      generalize (10 * magnitude r.number + digitOf d) / magnitude divisor.number = hi
        at hsplit ⊢
      generalize (10 * magnitude r.number + digitOf d) % magnitude divisor.number = lo
        at hsplit ⊢
      have e3 : magnitude r.number * (10 ^ ds.length * 10) + (digitOf d * 10 ^ ds.length
          + magnitude ds) = (lo * 10 ^ ds.length + magnitude ds)
            + (hi * 10 ^ ds.length) * magnitude divisor.number := by
        have : digitOf d = lo + magnitude divisor.number * hi - 10 * magnitude r.number := by
          omega
        rw [this]
        ring
      rw [e3, Int.add_mul_ediv_right _ _ hne]
      ring

theorem tdiv_signed (a b : Int) (ha : 0 ≤ a) (hb : 0 ≤ b) (s t : Bool) :
    Int.tdiv (if s = true then -a else a) (if t = true then -b else b)
      = if (s != t) = true then -(a / b) else a / b := by
  cases s <;> cases t <;>
    simp [Int.neg_tdiv, Int.tdiv_neg, Int.tdiv_eq_ediv ha hb]

/-- The quotient computed by `operator/=`: canonical and truncated toward zero. -/
theorem opDivAssign_spec (fuel : Nat) (hf : 10 ≤ fuel) {x y : BigInt} (hx : Canonical x)
    (hy : Canonical y) (hy0 : y.number ≠ ['0']) :
    ∃ q, opDivAssign fuel x y = .ok q ∧ Canonical q ∧
      value q = Int.tdiv (value x) (value y) ∧
      magnitude q.number = magnitude x.number / magnitude y.number := by
  have cx := ((canonical_iff x).mp hx).1
  have cy := ((canonical_iff y).mp hy).1
  have hmx := magnitude_nonneg hx.2.1
  have hmy := canonDigits_pos cy hy0
  have hv : Int.tdiv (value x) (value y)
      = if (x.isNegative != y.isNegative) = true
        then -(magnitude x.number / magnitude y.number)
        else magnitude x.number / magnitude y.number := by
    unfold value
    exact tdiv_signed _ _ hmx (by omega) _ _
  have hc := compareMagnitude_spec (x := ⟨x.number, false⟩) (y := ⟨y.number, false⟩) cx cy
  simp only at hc
  unfold opDivAssign
  rw [if_neg hy0]
  simp only
  by_cases hlt : magnitude x.number < magnitude y.number
  · rw [if_pos hlt] at hc
    rw [hc, if_pos (by decide), ofInt64_zero]
    refine ⟨_, rfl, canonical_zero, ?_, ?_⟩
    · rw [value_zero, hv, Int.ediv_eq_zero_of_lt hmx hlt]
      simp
    · rw [magnitude_zero_str, Int.ediv_eq_zero_of_lt hmx hlt]
  · have hcge : ¬ compareMagnitude ⟨x.number, false⟩ ⟨y.number, false⟩ < 0 := by
      rw [hc, if_neg hlt]
      split <;> decide
    rw [if_neg hcge]
    have hdc : Canonical ⟨y.number, false⟩ := by
      rw [canonical_iff]
      exact ⟨cy, fun _ => rfl⟩
    obtain ⟨qf, e, d, m⟩ := divLoop_spec hdc rfl hmy fuel hf x.number BigInt.default []
      hx.2.1 canonical_default rfl (by simpa [BigInt.default, magnitude_zero_str] using hmy)
      Digits.nil
    simp only [BigInt.default, magnitude_zero_str, zero_mul, zero_add,
      show magnitude [] = 0 from rfl] at m
    rw [e]
    simp only
    refine ⟨_, rfl, canonical_removeLeadingZeros d, ?_, ?_⟩
    · rw [value_removeLeadingZeros, hv]
      simp only [value, m]
    · rw [magnitude_removeLeadingZeros, m]

/-- Binary `operator/` on canonical operands with a non-zero divisor. -/
theorem opDiv_spec (fuel : Nat) (hf : 10 ≤ fuel) {x y : BigInt} (hx : Canonical x)
    (hy : Canonical y) (hy0 : y.number ≠ ['0']) :
    ∃ q, opDiv fuel x y = .ok q ∧ Canonical q ∧ value q = Int.tdiv (value x) (value y) := by
  obtain ⟨q, h1, h2, h3, _⟩ := opDivAssign_spec fuel hf hx hy hy0
  exact ⟨q, by rw [opDiv, h1]; rfl, h2, h3⟩

/-! ## Construction from a string and conversion to a string -/

theorem removeLeadingZeros_isNegative {x : BigInt} (h : magnitude x.number ≠ 0) :
    (removeLeadingZeros x).isNegative = x.isNegative := by
  unfold removeLeadingZeros
  simp only
  split
  · rename_i h0
    exact absurd (magnitude_of_all_zero x.number h0) h
  · rfl

theorem drop_sign_eq_stripSign (s : List Char) :
    s.drop (if s.head? = some '-' then 1 else if s.head? = some '+' then 1 else 0)
      = stripSign s := by
  cases s with
  | nil => rfl
  | cons c cs =>
    simp only [List.head?_cons, Option.some.injEq, stripSign]
    by_cases h1 : c = '-'
    · simp [h1]
    · by_cases h2 : c = '+'
      · simp [h2]
      · simp [h1, h2]

theorem all_isDigit_iff (s : List Char) : s.all Char.isDigit = true ↔ Digits s := by
  simp [Digits, List.all_eq_true]

theorem dropWhile_zero_eq (s : List Char) :
    s.dropWhile (fun c => decide (c = '0')) = s.drop (leadingZeros s) := by
  induction s with
  | nil => rfl
  | cons c cs ih =>
    by_cases h : c = '0'
    · simp [List.dropWhile, leadingZeros, h, ih]
    · simp [List.dropWhile, leadingZeros, h]

/-- The string constructor outside its four literal cases. -/
theorem ofString_general {s : List Char}
    (h : ¬ (s = [] ∨ s = ['0'] ∨ s = ['+', '0'] ∨ s = ['-', '0'])) :
    ofString s =
      if Digits (stripSign s) then
        .ok (if (removeLeadingZeros ⟨stripSign s, decide (s.head? = some '-')⟩).number = ['0']
          then ⟨(removeLeadingZeros ⟨stripSign s, decide (s.head? = some '-')⟩).number, false⟩
          else removeLeadingZeros ⟨stripSign s, decide (s.head? = some '-')⟩)
      else .throw .invalid_argument := by
  unfold ofString
  rw [if_neg h]
  simp only [drop_sign_eq_stripSign, all_isDigit_iff]

theorem ofString_literal {s : List Char}
    (h : s = [] ∨ s = ['0'] ∨ s = ['+', '0'] ∨ s = ['-', '0']) :
    ofString s = .ok ⟨['0'], false⟩ ∧ Digits (stripSign s) := by
  rcases h with rfl | rfl | rfl | rfl <;> exact ⟨rfl, by decide⟩

theorem not_digits_iff (s : List Char) : ¬ Digits s ↔ ∃ c ∈ s, c.isDigit = false := by
  unfold Digits
  constructor
  · intro h
    by_contra hc
    apply h
    intro c hcs
    by_contra hd
    exact hc ⟨c, hcs, by simpa using hd⟩
  · rintro ⟨c, hcs, hd⟩ h
    rw [h c hcs] at hd
    exact absurd hd (by decide)

theorem ofString_throw_iff (s : List Char) :
    ofString s = .throw .invalid_argument ↔ ¬ Digits (stripSign s) := by
  by_cases h : s = [] ∨ s = ['0'] ∨ s = ['+', '0'] ∨ s = ['-', '0']
  · obtain ⟨h1, h2⟩ := ofString_literal h
    rw [h1]
    constructor
    · intro h3
      cases h3
    · intro h3
      exact absurd h2 h3
  · rw [ofString_general h]
    split
    · rename_i hd
      constructor
      · intro h3
        cases h3
      · intro h3
        exact absurd hd h3
    · rename_i hd
      exact ⟨fun _ => hd, fun _ => rfl⟩

theorem ofString_ok_of_digits {s : List Char} (hd : Digits (stripSign s)) :
    ∃ r, ofString s = .ok r := by
  by_cases h : s = [] ∨ s = ['0'] ∨ s = ['+', '0'] ∨ s = ['-', '0']
  · exact ⟨_, (ofString_literal h).1⟩
  · rw [ofString_general h, if_pos hd]
    exact ⟨_, rfl⟩

theorem toString_ofString {s : List Char} (hne : stripSign s ≠ [])
    (hd : Digits (stripSign s)) :
    ∃ r, ofString s = .ok r ∧ toString r = canonicalForm s := by
  by_cases h : s = [] ∨ s = ['0'] ∨ s = ['+', '0'] ∨ s = ['-', '0']
  · refine ⟨_, (ofString_literal h).1, ?_⟩
    rcases h with rfl | rfl | rfl | rfl
    · exact absurd rfl hne
    · decide
    · decide
    · decide
  · rw [ofString_general h, if_pos hd]
    refine ⟨_, rfl, ?_⟩
    unfold canonicalForm
    rw [dropWhile_zero_eq]
    unfold removeLeadingZeros
    simp only
    by_cases hz : leadingZeros (stripSign s) = (stripSign s).length
    · rw [if_pos hz, hz, List.drop_length]
      simp [toString]
    · rw [if_neg hz]
      have hnz := head_drop_leadingZeros (stripSign s)
      have hle := leadingZeros_le (stripSign s)
      have hnil : (stripSign s).drop (leadingZeros (stripSign s)) ≠ [] := by
        intro h0
        have := congrArg List.length h0
        simp only [List.length_drop, List.length_nil] at this
        omega
      have h0 : (stripSign s).drop (leadingZeros (stripSign s)) ≠ ['0'] := by
        intro h1
        rw [h1] at hnz
        exact hnz rfl
      simp only
      rw [if_neg h0, if_neg hnil]
      unfold toString
      simp only
      by_cases hs : s.head? = some '-'
      · simp [hs, h0]
      · simp [hs]

theorem ofString_toString {x : BigInt} (hx : Canonical x) : ofString (toString x) = .ok x := by
  have hrl := removeLeadingZeros_of_canonical hx
  obtain ⟨hne, hd, hz, hs⟩ := hx
  rcases x with ⟨num, neg⟩
  simp only at hne hd hz hs
  by_cases h0 : num = ['0']
  · subst h0
    have := hs rfl
    subst this
    rfl
  · cases num with
    | nil => exact absurd rfl hne
    | cons c cs =>
      have hc : c.isDigit = true := hd c (List.mem_cons_self c cs)
      have hd1 : Digits (c :: cs) := hd
      have hcm : c ≠ '-' := by
        rintro rfl
        exact absurd hc (by decide)
      have hcp : c ≠ '+' := by
        rintro rfl
        exact absurd hc (by decide)
      cases neg with
      | true =>
        have e1 : toString ⟨c :: cs, true⟩ = '-' :: c :: cs := by
          simp [toString, h0]
        rw [e1]
        have hnl : ¬ ('-' :: c :: cs = [] ∨ '-' :: c :: cs = ['0']
            ∨ '-' :: c :: cs = ['+', '0'] ∨ '-' :: c :: cs = ['-', '0']) := by
          rintro (h | h | h | h)
          · exact absurd h (List.cons_ne_nil _ _)
          · exact absurd (List.cons.inj h).1 (by decide)
          · exact absurd (List.cons.inj h).1 (by decide)
          · exact h0 (List.cons.inj h).2
        rw [ofString_general hnl]
        have e2 : stripSign ('-' :: c :: cs) = c :: cs := by simp [stripSign]
        simp only [e2, List.head?_cons, decide_True]
        rw [if_pos hd1, hrl, if_neg h0]
      | false =>
        have e1 : toString ⟨c :: cs, false⟩ = c :: cs := by
          simp [toString]
        rw [e1]
        have hnl : ¬ (c :: cs = [] ∨ c :: cs = ['0']
            ∨ c :: cs = ['+', '0'] ∨ c :: cs = ['-', '0']) := by
          rintro (h | h | h | h)
          · exact absurd h (List.cons_ne_nil _ _)
          · exact h0 h
          · exact hcp (List.cons.inj h).1
          · exact hcm (List.cons.inj h).1
        rw [ofString_general hnl]
        have e2 : stripSign (c :: cs) = c :: cs := by simp [stripSign, hcm, hcp]
        have e3 : decide ((c :: cs).head? = some '-') = false := by
          simp [hcm]
        rw [e2, e3, if_pos hd1, hrl, if_neg h0]

/-! ## Modulus: the looping case -/

/-- For a negative dividend of smaller magnitude than the divisor the quotient
is zero, so `operator%` evaluates `lhs - 0` with a negative `lhs`, which is the
looping case of `operator-=`. -/
theorem opMod_outOfFuel {x y : BigInt} (hx : x.isNegative = true) (hy0 : y.number ≠ ['0'])
    (hlt : compareMagnitude ⟨x.number, false⟩ ⟨y.number, false⟩ < 0) (fuel : Nat) :
    opMod fuel x y = .outOfFuel := by
  have hdiv : opDiv fuel x y = .ok (ofInt64 0) := by
    unfold opDiv opDivAssign
    rw [if_neg hy0]
    simp only
    rw [if_pos hlt]
    rfl
  have hmul : opMul (ofInt64 0) y = ofInt64 0 := by
    unfold opMul
    exact if_pos (Or.inl rfl)
  have hsub : opSub fuel x (ofInt64 0) = .outOfFuel := by
    unfold opSub
    rw [(opAddSub_outOfFuel (x := x) (y := ofInt64 0) (by rw [hx]; decide) rfl fuel).2]
    rfl
  unfold opMod
  rw [if_neg hy0]
  simp only
  rw [hdiv]
  simp only
  rw [hmul, hsub]

theorem value_neg_isNegative {x : BigInt} (h : Canonical x) (h0 : value x < 0) :
    x.isNegative = true := by
  cases hx : x.isNegative with
  | true => rfl
  | false =>
    have := magnitude_nonneg (s := x.number) h.2.1
    rw [value_of_nonneg hx] at h0
    omega

theorem tmod_nonpos_of_nonpos {a : Int} (b : Int) (ha : a ≤ 0) : a.tmod b ≤ 0 := by
  have h1 := Int.tmod_nonneg b (a := -a) (by omega)
  rw [Int.tmod_def, Int.neg_tdiv] at h1
  rw [Int.tmod_def]
  have h2 : b * -(a.tdiv b) = -(b * a.tdiv b) := by ring
  rw [h2] at h1
  omega

/-- Outside the looping case the remainder is right: it stands for the truncating
remainder of `value x` by `value y`. -/
theorem opMod_spec (fuel : Nat) (hf : 10 ≤ fuel) {x y : BigInt} (hx : Canonical x)
    (hy : Canonical y) (hy0 : y.number ≠ ['0'])
    (hne : ¬ (x.isNegative = true ∧ magnitude x.number < magnitude y.number)) :
    ∃ r, opMod fuel x y = .ok r ∧ Canonical r ∧ value r = Int.tmod (value x) (value y) := by
  obtain ⟨q, e1, c1, v1, m1⟩ := opDivAssign_spec fuel hf hx hy hy0
  obtain ⟨c2, v2, m2⟩ := opMul_spec c1 hy
  have cy := ((canonical_iff y).mp hy).1
  have hmx := magnitude_nonneg (s := x.number) hx.2.1
  have hmy := canonDigits_pos cy hy0
  have hp : ¬ (x.isNegative = true ∧ (opMul q y).number = ['0']) := by
    rintro ⟨hn, hz⟩
    apply hne
    refine ⟨hn, ?_⟩
    rw [hz, magnitude_zero_str, m1] at m2
    have hq : magnitude x.number / magnitude y.number = 0 := by
      rcases mul_eq_zero.mp m2.symm with h | h
      · exact h
      · omega
    by_contra hge
    have : 1 ≤ magnitude x.number / magnitude y.number :=
      Int.le_ediv_of_mul_le hmy (by omega)
    omega
  obtain ⟨g, rfl⟩ : ∃ g, fuel = g + 2 := ⟨fuel - 2, by omega⟩
  obtain ⟨r, e3, c3, v3⟩ := opSubAssign_value g hx c2 hp
  have hv : value r = Int.tmod (value x) (value y) := by
    rw [v3, v2, v1, Int.tmod_def]
    ring
  refine ⟨r, ?_, c3, hv⟩
  unfold opMod
  rw [if_neg hy0]
  simp only
  have e1v : opDiv (g + 2) x y = .ok q := by
    rw [opDiv, e1]
    rfl
  have e3v : opSub (g + 2) x (opMul q y) = .ok r := by
    rw [opSub, e3]
    rfl
  rw [e1v]
  simp only
  rw [e3v]
  simp only
  by_cases hc : x.isNegative = true ∧ r.number ≠ ['0']
  · rw [if_pos hc]
    have hle : value r ≤ 0 := by
      rw [hv]
      apply tmod_nonpos_of_nonpos
      simp only [value, hc.1, if_true]
      omega
    have hnz : value r ≠ 0 := by
      intro h0
      have hm : magnitude r.number = 0 := by
        unfold value at h0
        split at h0 <;> omega
      exact hc.2 (canonDigits_eq_zero ((canonical_iff r).mp c3).1 hm)
    have := value_neg_isNegative c3 (by omega)
    rw [← this]
  · rw [if_neg hc]

/-! ## Worked examples of the test driver -/

set_option maxRecDepth 100000 in
theorem mul_example :
    toString (opMul ⟨"12345678901234567890".toList, false⟩
      ⟨"98765432109876543210".toList, false⟩)
      = "1219326311370217952237463801111263526900".toList := by
  decide

theorem add_example :
    opAdd 2 (ofInt64 12345) ⟨"67890".toList, true⟩ = .ok ⟨"55545".toList, true⟩ := by
  decide

/-! ## The claims -/

/-- C1 (the code at a failing input): the operands `BigInt(-1)` and `BigInt(0)`
are canonical, yet `BigInt(-1) + BigInt(0)` returns for no amount of fuel:
`operator+=` and `operator-=` call each other for ever, so the sum that the claim
promises is never produced. -/
theorem C1_add_negative_zero_never_returns :
    Canonical (ofInt64 (-1)) ∧ Canonical (ofInt64 0) ∧
    ∀ fuel : Nat, opAdd fuel (ofInt64 (-1)) (ofInt64 0) = .outOfFuel := by
  refine ⟨by decide, by decide, fun fuel => ?_⟩
  unfold opAdd
  rw [(opAddSub_outOfFuel (x := ofInt64 (-1)) (y := ofInt64 0) (by decide) rfl fuel).1]
  rfl

/-- C2 (the code at a failing input): for the canonical negative value
`BigInt("-5")` the sum `x + BigInt(0)` never returns a value, so it cannot
compare equal to `x`. -/
theorem C2_negative_plus_zero_returns_nothing :
    ofString "-5".toList = .ok ⟨['5'], true⟩ ∧ Canonical ⟨['5'], true⟩ ∧
    ∀ (fuel : Nat) (r : BigInt), opAdd fuel ⟨['5'], true⟩ (ofInt64 0) ≠ .ok r := by
  refine ⟨by decide, by decide, fun fuel r h => ?_⟩
  unfold opAdd at h
  rw [(opAddSub_outOfFuel (x := ⟨['5'], true⟩) (y := ofInt64 0) (by decide) rfl fuel).1] at h
  cases h

/-- C3: for canonical operands the product `x * y` is canonical, stands for
`value x * value y`, is the canonical zero when an operand is zero, and is
negative exactly when one operand is negative and neither is zero; the product
of 12345678901234567890 and 98765432109876543210 prints as
1219326311370217952237463801111263526900. -/
theorem C3_mul_value (x y : BigInt) (hx : Canonical x) (hy : Canonical y) :
    value (opMul x y) = value x * value y ∧ Canonical (opMul x y) ∧
    ((x.number = ['0'] ∨ y.number = ['0']) → opMul x y = ⟨['0'], false⟩) ∧
    ((opMul x y).isNegative = true ↔
      (x.isNegative ≠ y.isNegative ∧ x.number ≠ ['0'] ∧ y.number ≠ ['0'])) ∧
    toString (opMul ⟨"12345678901234567890".toList, false⟩
      ⟨"98765432109876543210".toList, false⟩)
      = "1219326311370217952237463801111263526900".toList := by
  obtain ⟨h1, h2, h3⟩ := opMul_spec hx hy
  refine ⟨h2, h1, ?_, ?_, mul_example⟩
  · intro h0
    unfold opMul
    rw [if_pos h0]
    rfl
  · by_cases h0 : x.number = ['0'] ∨ y.number = ['0']
    · have hz : opMul x y = ⟨['0'], false⟩ := by
        unfold opMul
        rw [if_pos h0]
        rfl
      rw [hz]
      constructor
      · intro h
        cases h
      · rintro ⟨_, hx0, hy0⟩
        rcases h0 with h0 | h0
        · exact absurd h0 hx0
        · exact absurd h0 hy0
    · have hx0 : x.number ≠ ['0'] := fun h => h0 (Or.inl h)
      have hy0 : y.number ≠ ['0'] := fun h => h0 (Or.inr h)
      have px := canonDigits_pos ((canonical_iff x).mp hx).1 hx0
      have py := canonDigits_pos ((canonical_iff y).mp hy).1 hy0
      obtain ⟨d1, d2⟩ := @mulOuter_value x.number y.number hx.2.1 hy.2.1
      have hneg : (opMul x y).isNegative = (x.isNegative != y.isNegative) := by
        unfold opMul
        rw [if_neg h0]
        simp only
        rw [removeLeadingZeros_isNegative]
        simp only
        rw [d2]
        exact (mul_pos px py).ne'
      rw [hneg]
      cases x.isNegative <;> cases y.isNegative <;> simp [hx0, hy0]

/-- The product theorem C3 at `-5` and `3`. -/
theorem C3_mul_value_witness :
    Canonical ⟨['5'], true⟩ ∧ Canonical ⟨['3'], false⟩ ∧
    (value (opMul ⟨['5'], true⟩ ⟨['3'], false⟩) = value ⟨['5'], true⟩ * value ⟨['3'], false⟩ ∧
    Canonical (opMul ⟨['5'], true⟩ ⟨['3'], false⟩) ∧
    (((⟨['5'], true⟩ : BigInt).number = ['0'] ∨ (⟨['3'], false⟩ : BigInt).number = ['0']) →
      opMul ⟨['5'], true⟩ ⟨['3'], false⟩ = ⟨['0'], false⟩) ∧
    ((opMul ⟨['5'], true⟩ ⟨['3'], false⟩).isNegative = true ↔
      ((⟨['5'], true⟩ : BigInt).isNegative ≠ (⟨['3'], false⟩ : BigInt).isNegative ∧
        (⟨['5'], true⟩ : BigInt).number ≠ ['0'] ∧ (⟨['3'], false⟩ : BigInt).number ≠ ['0'])) ∧
    toString (opMul ⟨"12345678901234567890".toList, false⟩
      ⟨"98765432109876543210".toList, false⟩)
      = "1219326311370217952237463801111263526900".toList) :=
  ⟨by decide, by decide, C3_mul_value ⟨['5'], true⟩ ⟨['3'], false⟩ (by decide) (by decide)⟩

/-- C4: for canonical operands and a non-zero divisor, `x / y` returns (given
fuel for ten iterations of the counting loop) a canonical value that stands for
the quotient of `value x` by `value y` truncated toward zero; `BigInt(-10) /
BigInt(3)` is `-3` and `BigInt(-67890) / BigInt(12345)` is `-5`. -/
theorem C4_div_truncates (fuel : Nat) (hf : 10 ≤ fuel) (x y : BigInt) (hx : Canonical x)
    (hy : Canonical y) (hy0 : y.number ≠ ['0']) :
    (∃ q, opDiv fuel x y = .ok q ∧ Canonical q ∧ value q = Int.tdiv (value x) (value y)) ∧
    opDiv fuel (ofInt64 (-10)) (ofInt64 3) = .ok (ofInt64 (-3)) ∧
    opDiv fuel (ofInt64 (-67890)) (ofInt64 12345) = .ok (ofInt64 (-5)) := by
  refine ⟨opDiv_spec fuel hf hx hy hy0, ?_, ?_⟩
  · obtain ⟨q, e, c, v⟩ := opDiv_spec fuel hf (x := ofInt64 (-10)) (y := ofInt64 3)
      (by decide) (by decide) (by decide)
    rw [e, canonical_inj c (y := ofInt64 (-3)) (by decide) (v.trans (by decide))]
  · obtain ⟨q, e, c, v⟩ := opDiv_spec fuel hf (x := ofInt64 (-67890)) (y := ofInt64 12345)
      (by decide) (by decide) (by decide)
    rw [e, canonical_inj c (y := ofInt64 (-5)) (by decide) (v.trans (by decide))]

/-- The quotient theorem C4 at `-7 / 2` with fuel 10. -/
theorem C4_div_truncates_witness :
    10 ≤ 10 ∧ Canonical ⟨['7'], true⟩ ∧ Canonical ⟨['2'], false⟩ ∧
    (⟨['2'], false⟩ : BigInt).number ≠ ['0'] ∧
    ((∃ q, opDiv 10 ⟨['7'], true⟩ ⟨['2'], false⟩ = .ok q ∧ Canonical q ∧
      value q = Int.tdiv (value ⟨['7'], true⟩) (value ⟨['2'], false⟩)) ∧
    opDiv 10 (ofInt64 (-10)) (ofInt64 3) = .ok (ofInt64 (-3)) ∧
    opDiv 10 (ofInt64 (-67890)) (ofInt64 12345) = .ok (ofInt64 (-5))) :=
  ⟨by decide, by decide, by decide, by decide,
    C4_div_truncates 10 (by decide) ⟨['7'], true⟩ ⟨['2'], false⟩ (by decide) (by decide)
      (by decide)⟩

/-- C5 (the code at a failing input): for the canonical operands `x = -1` and
`y = 3` the expression `(x / y) * y + (x % y) == x` returns for no amount of
fuel, because its operand `x % y` never returns. -/
theorem C5_divmod_law_never_returns :
    Canonical ⟨['1'], true⟩ ∧ Canonical ⟨['3'], false⟩ ∧
    ∀ fuel : Nat, divModLaw fuel ⟨['1'], true⟩ ⟨['3'], false⟩ = .outOfFuel := by
  refine ⟨by decide, by decide, fun fuel => ?_⟩
  have hdiv : opDiv fuel ⟨['1'], true⟩ ⟨['3'], false⟩ = .ok (ofInt64 0) := rfl
  unfold divModLaw
  rw [hdiv]
  simp only
  rw [opMod_outOfFuel rfl (by decide) (by decide) fuel]

/-- C6 (the code at a failing input): `BigInt(-1) % BigInt(3)` returns for no
amount of fuel, where the claim promises the remainder `-1`. -/
theorem C6_mod_small_negative_never_returns :
    Canonical (ofInt64 (-1)) ∧ Canonical (ofInt64 3) ∧
    ∀ fuel : Nat, opMod fuel (ofInt64 (-1)) (ofInt64 3) = .outOfFuel :=
  ⟨by decide, by decide, fun fuel => opMod_outOfFuel rfl (by decide) (by decide) fuel⟩

/-- C7: when the right operand has the magnitude "0", each of `x / y`, `x % y`,
`x /= y` and `x %= y` throws `runtime_error` whatever `x` and the fuel are, and
the compound forms throw with `*this` still equal to `x`. -/
theorem C7_division_by_zero (fuel : Nat) (x y : BigInt) (hy : y.number = ['0']) :
    opDiv fuel x y = .throw .runtime_error ∧ opMod fuel x y = .throw .runtime_error ∧
    opDivAssign fuel x y = .throw .runtime_error x ∧
    opModAssign fuel x y = .throw .runtime_error x := by
  refine ⟨?_, ?_, ?_, ?_⟩
  · unfold opDiv opDivAssign
    rw [if_pos hy]
    rfl
  · unfold opMod
    rw [if_pos hy]
  · unfold opDivAssign
    rw [if_pos hy]
  · unfold opModAssign
    rw [if_pos hy]

/-- The division-by-zero theorem C7 at `1` and `0`, as in the test driver. -/
theorem C7_division_by_zero_witness :
    (ofInt64 0).number = ['0'] ∧
    (opDiv 0 (ofInt64 1) (ofInt64 0) = .throw .runtime_error ∧
    opMod 0 (ofInt64 1) (ofInt64 0) = .throw .runtime_error ∧
    opDivAssign 0 (ofInt64 1) (ofInt64 0) = .throw .runtime_error (ofInt64 1) ∧
    opModAssign 0 (ofInt64 1) (ofInt64 0) = .throw .runtime_error (ofInt64 1)) :=
  ⟨rfl, C7_division_by_zero 0 (ofInt64 1) (ofInt64 0) rfl⟩

/-- C8: the string constructor throws `invalid_argument` exactly when the
string, after removing at most one leading sign, contains a character that is
not a decimal digit; every string either throws this error or constructs a
value; and "12a3", "--5" and "5." are rejected. -/
theorem C8_ofString_rejects_exactly_non_digits :
    (∀ s : List Char,
      (ofString s = .throw .invalid_argument ↔ ∃ c ∈ stripSign s, c.isDigit = false) ∧
      (ofString s = .throw .invalid_argument ∨ ∃ r, ofString s = .ok r)) ∧
    ofString "12a3".toList = .throw .invalid_argument ∧
    ofString "--5".toList = .throw .invalid_argument ∧
    ofString "5.".toList = .throw .invalid_argument := by
  refine ⟨fun s => ⟨?_, ?_⟩, by decide, by decide, by decide⟩
  · rw [ofString_throw_iff, not_digits_iff]
  · by_cases hd : Digits (stripSign s)
    · exact Or.inr (ofString_ok_of_digits hd)
    · exact Or.inl ((ofString_throw_iff s).mpr hd)

/-- C9: for a string made of an optional sign followed by one or more decimal
digits, the constructor succeeds and `toString` of the result is the canonical
form of the string. -/
theorem C9_toString_ofString (s : List Char) (hne : stripSign s ≠ [])
    (hd : Digits (stripSign s)) :
    ∃ r, ofString s = .ok r ∧ toString r = canonicalForm s :=
  toString_ofString hne hd

/-- The round trip C9 at the string "-000123". -/
theorem C9_toString_ofString_witness :
    stripSign "-000123".toList ≠ [] ∧ Digits (stripSign "-000123".toList) ∧
    ∃ r, ofString "-000123".toList = .ok r ∧ toString r = canonicalForm "-000123".toList :=
  ⟨by decide, by decide, C9_toString_ofString "-000123".toList (by decide) (by decide)⟩

/-- C10: for a canonical `x`, constructing a `BigInt` from `toString x` succeeds
and gives back `x`: the same sign flag, the same digit string, and `==` holds. -/
theorem C10_ofString_toString (x : BigInt) (hx : Canonical x) :
    ∃ r, ofString (toString x) = .ok r ∧ r.isNegative = x.isNegative ∧
      r.number = x.number ∧ opEq r x = true := by
  refine ⟨x, ofString_toString hx, rfl, rfl, ?_⟩
  simp [opEq]

/-- The round trip C10 at the value `-67890`. -/
theorem C10_ofString_toString_witness :
    Canonical ⟨"67890".toList, true⟩ ∧
    ∃ r, ofString (toString ⟨"67890".toList, true⟩) = .ok r ∧
      r.isNegative = (⟨"67890".toList, true⟩ : BigInt).isNegative ∧
      r.number = (⟨"67890".toList, true⟩ : BigInt).number ∧
      opEq r ⟨"67890".toList, true⟩ = true :=
  ⟨by decide, C10_ofString_toString ⟨"67890".toList, true⟩ (by decide)⟩

/-! ## Relational operators -/

theorem canonical_neg_pos {x : BigInt} (h : Canonical x) (hn : x.isNegative = true) :
    0 < magnitude x.number := by
  rw [canonical_iff] at h
  apply canonDigits_pos h.1
  intro h0
  have := h.2 h0
  rw [hn] at this
  exact absurd this (by decide)

theorem opLt_iff {x y : BigInt} (hx : Canonical x) (hy : Canonical y) :
    opLt x y = true ↔ value x < value y := by
  have hc := compareMagnitude_spec ((canonical_iff x).mp hx).1 ((canonical_iff y).mp hy).1
  have mx := magnitude_nonneg (s := x.number) hx.2.1
  have my := magnitude_nonneg (s := y.number) hy.2.1
  unfold opLt value
  cases hxn : x.isNegative <;> cases hyn : y.isNegative
  · simp only [ne_eq, not_true_eq_false, if_false, Bool.not_false, if_true,
      Bool.false_eq_true, decide_eq_true_eq]
    rw [hc]
    by_cases h1 : magnitude x.number < magnitude y.number
    · simp [h1]
    · rw [if_neg h1]
      constructor
      · intro h
        split at h <;> exact absurd h (by decide)
      · intro h
        exact absurd h h1
  · have py := canonical_neg_pos hy hyn
    simp only [ne_eq, Bool.false_eq_true, not_false_eq_true, if_true, if_false, false_iff]
    omega
  · have px := canonical_neg_pos hx hxn
    simp only [ne_eq, Bool.true_eq_false, not_false_eq_true, if_true, Bool.false_eq_true,
      if_false, true_iff]
    omega
  · simp only [ne_eq, not_true_eq_false, if_false, Bool.not_true, Bool.false_eq_true,
      if_true, decide_eq_true_eq]
    rw [hc]
    by_cases h1 : magnitude x.number < magnitude y.number
    · rw [if_pos h1]
      constructor
      · intro h
        exact absurd h (by decide)
      · intro h
        omega
    · rw [if_neg h1]
      by_cases h2 : magnitude x.number = magnitude y.number
      · rw [if_pos h2]
        constructor
        · intro h
          exact absurd h (by decide)
        · intro h
          omega
      · rw [if_neg h2]
        constructor
        · intro _
          omega
        · intro _
          decide

theorem opEq_iff_eq (x y : BigInt) : opEq x y = true ↔ x = y := by
  rcases x with ⟨s, a⟩
  rcases y with ⟨t, b⟩
  simp only [opEq, Bool.and_eq_true, beq_iff_eq, BigInt.mk.injEq]
  tauto

theorem opEq_iff {x y : BigInt} (hx : Canonical x) (hy : Canonical y) :
    opEq x y = true ↔ value x = value y := by
  rw [opEq_iff_eq]
  constructor
  · intro h
    rw [h]
  · exact canonical_inj hx hy

/-- C11: for canonical operands `x < y` is true exactly when `value x` is below
`value y`. -/
theorem C11_lt_iff_value_lt (x y : BigInt) (hx : Canonical x) (hy : Canonical y) :
    opLt x y = true ↔ value x < value y :=
  opLt_iff hx hy

/-- The order theorem C11 at `12345` and `-67890`, as in the test driver. -/
theorem C11_lt_iff_value_lt_witness :
    Canonical ⟨"12345".toList, false⟩ ∧ Canonical ⟨"67890".toList, true⟩ ∧
    (opLt ⟨"12345".toList, false⟩ ⟨"67890".toList, true⟩ = true ↔
      value ⟨"12345".toList, false⟩ < value ⟨"67890".toList, true⟩) :=
  ⟨by decide, by decide,
    C11_lt_iff_value_lt ⟨"12345".toList, false⟩ ⟨"67890".toList, true⟩ (by decide) (by decide)⟩

/-- C12: for canonical operands `x == y` (same sign flag, same digit string) is
true exactly when `value x = value y`; equal values have identical
representations. -/
theorem C12_eq_iff_value_eq (x y : BigInt) (hx : Canonical x) (hy : Canonical y) :
    (opEq x y = true ↔ value x = value y) ∧ (value x = value y → x = y) :=
  ⟨opEq_iff hx hy, canonical_inj hx hy⟩

/-- The equality theorem C12 at `12345` and `0`. -/
theorem C12_eq_iff_value_eq_witness :
    Canonical ⟨"12345".toList, false⟩ ∧ Canonical ⟨['0'], false⟩ ∧
    ((opEq ⟨"12345".toList, false⟩ ⟨['0'], false⟩ = true ↔
      value ⟨"12345".toList, false⟩ = value ⟨['0'], false⟩) ∧
    (value ⟨"12345".toList, false⟩ = value ⟨['0'], false⟩ →
      (⟨"12345".toList, false⟩ : BigInt) = ⟨['0'], false⟩)) :=
  ⟨by decide, by decide,
    C12_eq_iff_value_eq ⟨"12345".toList, false⟩ ⟨['0'], false⟩ (by decide) (by decide)⟩

/-- C13: for canonical operands exactly one of `x < y`, `x == y`, `x > y` is
true, where `>` is `!(x <= y)` and `<=` is `x < y || x == y`. -/
theorem C13_order_total (x y : BigInt) (hx : Canonical x) (hy : Canonical y) :
    (opLt x y = true ∧ opEq x y = false ∧ opGt x y = false) ∨
    (opLt x y = false ∧ opEq x y = true ∧ opGt x y = false) ∨
    (opLt x y = false ∧ opEq x y = false ∧ opGt x y = true) := by
  have h1 := opLt_iff hx hy
  have h2 := opEq_iff hx hy
  have hne : ¬ (opLt x y = true ∧ opEq x y = true) := by
    rintro ⟨a, b⟩
    have := h1.mp a
    have := h2.mp b
    omega
  unfold opGt opLe
  cases hl : opLt x y <;> cases he : opEq x y <;> simp_all

/-- The totality theorem C13 at `12345` and `-67890`. -/
theorem C13_order_total_witness :
    Canonical ⟨"12345".toList, false⟩ ∧ Canonical ⟨"67890".toList, true⟩ ∧
    ((opLt ⟨"12345".toList, false⟩ ⟨"67890".toList, true⟩ = true ∧
        opEq ⟨"12345".toList, false⟩ ⟨"67890".toList, true⟩ = false ∧
        opGt ⟨"12345".toList, false⟩ ⟨"67890".toList, true⟩ = false) ∨
      (opLt ⟨"12345".toList, false⟩ ⟨"67890".toList, true⟩ = false ∧
        opEq ⟨"12345".toList, false⟩ ⟨"67890".toList, true⟩ = true ∧
        opGt ⟨"12345".toList, false⟩ ⟨"67890".toList, true⟩ = false) ∨
      (opLt ⟨"12345".toList, false⟩ ⟨"67890".toList, true⟩ = false ∧
        opEq ⟨"12345".toList, false⟩ ⟨"67890".toList, true⟩ = false ∧
        opGt ⟨"12345".toList, false⟩ ⟨"67890".toList, true⟩ = true)) :=
  ⟨by decide, by decide,
    C13_order_total ⟨"12345".toList, false⟩ ⟨"67890".toList, true⟩ (by decide) (by decide)⟩

/-! ## Construction from a 64-bit integer -/

theorem ofInt64Loop_zero (fuel : Nat) (acc : List Char) : ofInt64Loop fuel 0 acc = acc := by
  cases fuel <;> simp [ofInt64Loop]

theorem charOf_eq_digitChar (d : Nat) (h : d < 10) :
    charOf ((d : Int) + 48) = Nat.digitChar d := by
  interval_cases d <;> decide

theorem ofInt64Loop_step (fuel n : Nat) (acc : List Char) (hn : 0 < n) :
    ofInt64Loop (fuel + 1) (n : Int) acc
      = ofInt64Loop fuel ((n / 10 : Nat) : Int) (charOf (((n % 10 : Nat) : Int) + 48) :: acc) := by
  have h0 : (0 : Int) ≤ n := Int.ofNat_nonneg n
  have hpos : (n : Int) > 0 := by omega
  rw [ofInt64Loop, if_pos hpos, tdiv_ten h0, tmod_ten h0]
  norm_cast

/-- The digit loop of the integer constructor writes the decimal digits of
`temp`, most significant first, in front of what it was given. -/
theorem ofInt64Loop_digits (fuel : Nat) : ∀ (n : Nat) (acc : List Char), n ≤ fuel →
    ofInt64Loop fuel (n : Int) acc = (Nat.digits 10 n).reverse.map Nat.digitChar ++ acc := by
  induction fuel with
  | zero =>
    intro n acc hn
    have : n = 0 := by omega
    subst this
    simp [ofInt64Loop]
  | succ fuel ih =>
    intro n acc hn
    by_cases h0 : n = 0
    · subst h0
      rw [Nat.cast_zero, ofInt64Loop_zero]
      simp
    · have hpos : 0 < n := Nat.pos_of_ne_zero h0
      rw [ofInt64Loop_step fuel n acc hpos, ih (n / 10) _ (by omega),
        Nat.digits_def' (by decide) hpos, charOf_eq_digitChar _ (Nat.mod_lt n (by decide))]
      simp

theorem ofInt64Loop_canon (fuel : Nat) : ∀ (n : Nat) (acc : List Char), n ≤ fuel → 0 < n →
    Digits acc →
    ∃ c cs, ofInt64Loop fuel (n : Int) acc = c :: cs ∧ c ≠ '0' ∧ Digits (c :: cs) ∧
      magnitude (c :: cs) = n * 10 ^ acc.length + magnitude acc := by
  induction fuel with
  | zero =>
    intro n acc hn hpos _
    omega
  | succ fuel ih =>
    intro n acc hn hpos hacc
    have hm : n % 10 < 10 := Nat.mod_lt n (by decide)
    have hd0 : (0 : Int) ≤ ((n % 10 : Nat) : Int) := Int.ofNat_nonneg _
    have hd9 : ((n % 10 : Nat) : Int) ≤ 9 := by omega
    have hdig := charOf_digit _ hd0 hd9
    have hacc1 : Digits (charOf (((n % 10 : Nat) : Int) + 48) :: acc) :=
      Digits.cons hdig.2 hacc
    have hsplit : (n : Int) = ((n / 10 : Nat) : Int) * 10 + ((n % 10 : Nat) : Int) := by
      have := Nat.div_add_mod n 10
      omega
    rw [ofInt64Loop_step fuel n acc hpos]
    by_cases hq : n / 10 = 0
    · rw [hq, Nat.cast_zero, ofInt64Loop_zero]
      refine ⟨_, _, rfl, ?_, hacc1, ?_⟩
      · intro hc
        have := (eq_zero_char_iff _).mp hc
        rw [hdig.1] at this
        omega
      · rw [magnitude_cons, hdig.1, hsplit, hq]
        simp
    · obtain ⟨c, cs, e, hc, hd, hv⟩ := ih (n / 10) _ (by omega) (Nat.pos_of_ne_zero hq) hacc1
      refine ⟨c, cs, e, hc, hd, ?_⟩
      rw [hv, magnitude_cons, hdig.1, List.length_cons, pow_succ]
      generalize ((n / 10 : Nat) : Int) = hi at hsplit ⊢
      generalize ((n % 10 : Nat) : Int) = lo at hsplit ⊢
      rw [hsplit]
      ring

theorem canonical_of_head_ne_zero {c : Char} {cs : List Char} (b : Bool) (hc : c ≠ '0')
    (hd : Digits (c :: cs)) : Canonical ⟨c :: cs, b⟩ := by
  refine ⟨List.cons_ne_nil _ _, hd, ?_, ?_⟩
  · intro h
    simp only [List.head?_cons, Option.some.injEq] at h
    exact absurd h hc
  · intro h
    exact absurd (List.cons.inj h).1 hc

/-- The integer constructor on a positive magnitude. -/
theorem ofInt64Loop_spec (n : Nat) (hpos : 0 < n) (b : Bool) :
    Canonical ⟨ofInt64Loop n (n : Int) [], b⟩ ∧ magnitude (ofInt64Loop n (n : Int) []) = n ∧
    ofInt64Loop n (n : Int) [] ≠ ['0'] ∧
    ofInt64Loop n (n : Int) [] = (Nat.digits 10 n).reverse.map Nat.digitChar := by
  obtain ⟨c, cs, e, hc, hd, hv⟩ := ofInt64Loop_canon n n [] (le_refl n) hpos Digits.nil
  refine ⟨?_, ?_, ?_, ?_⟩
  · rw [e]
    exact canonical_of_head_ne_zero b hc hd
  · rw [e, hv]
    simp [magnitude]
  · rw [e]
    intro h
    exact hc (List.cons.inj h).1
  · rw [ofInt64Loop_digits n n [] (le_refl n)]
    simp

theorem ofInt64_pos {v : Int} (h : 0 < v) :
    ofInt64 v = ⟨ofInt64Loop v.toNat v [], false⟩ := by
  unfold ofInt64
  rw [if_neg (by omega), if_neg (by omega)]

theorem ofInt64_neg {v : Int} (h : v < 0) (hmin : v ≠ INT64_MIN) :
    ofInt64 v = ⟨ofInt64Loop (-v).toNat (-v) [], true⟩ := by
  unfold ofInt64
  rw [if_neg (by omega), if_pos h, if_neg hmin]

theorem ofInt64_min :
    ofInt64 INT64_MIN = ⟨"9223372036854775808".toList, true⟩ := by
  decide

theorem digits_int64_min :
    (Nat.digits 10 9223372036854775808).reverse.map Nat.digitChar
      = "9223372036854775808".toList := by
  rw [← (ofInt64Loop_spec 9223372036854775808 (by decide) true).2.2.2]
  decide

theorem toString_neg {s : List Char} (h : s ≠ ['0']) : toString ⟨s, true⟩ = '-' :: s := by
  simp [toString, h]

theorem toString_nonneg (s : List Char) : toString ⟨s, false⟩ = s := by
  simp [toString]

theorem decimalRepr_neg {v : Int} (h : v < 0) :
    decimalRepr v = '-' :: ((Nat.digits 10 v.natAbs).reverse.map Nat.digitChar) := by
  unfold decimalRepr
  rw [if_neg (by omega), if_pos h]

theorem decimalRepr_pos {v : Int} (h : 0 < v) :
    decimalRepr v = (Nat.digits 10 v.natAbs).reverse.map Nat.digitChar := by
  unfold decimalRepr
  rw [if_neg (by omega), if_neg (by omega)]

/-- The integer constructor: canonical, of the right value, and printed as the
usual decimal representation. -/
theorem ofInt64_spec (v : Int) :
    Canonical (ofInt64 v) ∧ value (ofInt64 v) = v ∧ toString (ofInt64 v) = decimalRepr v := by
  by_cases h0 : v = 0
  · subst h0
    exact ⟨by decide, by decide, by decide⟩
  · by_cases hneg : v < 0
    · by_cases hmin : v = INT64_MIN
      · subst hmin
        refine ⟨by decide, by decide, ?_⟩
        rw [ofInt64_min]
        unfold decimalRepr INT64_MIN
        rw [if_neg (by decide), if_pos (by decide)]
        have : (-9223372036854775808 : Int).natAbs = 9223372036854775808 := by decide
        rw [this, digits_int64_min]
        decide
      · have hn : (0 : Nat) < (-v).toNat := by omega
        have hcast : (((-v).toNat : Nat) : Int) = -v := Int.toNat_of_nonneg (by omega)
        have habs : v.natAbs = (-v).toNat := by omega
        obtain ⟨c1, c2, c3, c4⟩ := ofInt64Loop_spec (-v).toNat hn true
        rw [hcast] at c1 c2 c3 c4
        rw [ofInt64_neg hneg hmin]
        refine ⟨c1, ?_, ?_⟩
        · simp only [value, if_true, c2]
          omega
        · rw [toString_neg c3, decimalRepr_neg hneg, habs, c4]
    · have hpos : 0 < v := by omega
      have hn : (0 : Nat) < v.toNat := by omega
      have hcast : ((v.toNat : Nat) : Int) = v := Int.toNat_of_nonneg (by omega)
      have habs : v.natAbs = v.toNat := by omega
      obtain ⟨c1, c2, c3, c4⟩ := ofInt64Loop_spec v.toNat hn false
      rw [hcast] at c1 c2 c3 c4
      rw [ofInt64_pos hpos]
      refine ⟨c1, ?_, ?_⟩
      · simp only [value, Bool.false_eq_true, if_false, c2]
      · rw [toString_nonneg, decimalRepr_pos hpos, habs, c4]

/-- C15: for every 64-bit signed integer `v`, the minimum included, `toString`
of `BigInt(v)` is the usual decimal representation of `v`; the constructed value
is canonical and stands for `v`, and the minimum prints as
"-9223372036854775808". -/
theorem C15_ofInt64_toString (v : Int) (_hlo : INT64_MIN ≤ v) (_hhi : v ≤ INT64_MAX) :
    toString (ofInt64 v) = decimalRepr v ∧ Canonical (ofInt64 v) ∧ value (ofInt64 v) = v ∧
    toString (ofInt64 INT64_MIN) = "-9223372036854775808".toList ∧
    toString (ofInt64 12345) = "12345".toList := by
  obtain ⟨h1, h2, h3⟩ := ofInt64_spec v
  exact ⟨h3, h1, h2, by decide, by decide⟩

/-- The constructor theorem C15 at the minimum 64-bit integer. -/
theorem C15_ofInt64_toString_witness :
    INT64_MIN ≤ INT64_MIN ∧ INT64_MIN ≤ INT64_MAX ∧
    (toString (ofInt64 INT64_MIN) = decimalRepr INT64_MIN ∧ Canonical (ofInt64 INT64_MIN) ∧
    value (ofInt64 INT64_MIN) = INT64_MIN ∧
    toString (ofInt64 INT64_MIN) = "-9223372036854775808".toList ∧
    toString (ofInt64 12345) = "12345".toList) :=
  ⟨by decide, by decide, C15_ofInt64_toString INT64_MIN (by decide) (by decide)⟩

/-! ## More fuel never changes a result -/

theorem opAddSub_mono (n : Nat) : ∀ (x y r : BigInt),
    (opAddAssign n x y = .ok r → opAddAssign (n + 1) x y = .ok r) ∧
    (opSubAssign n x y = .ok r → opSubAssign (n + 1) x y = .ok r) := by
  induction n with
  | zero =>
    intro x y r
    constructor
    · intro h
      rw [opAddAssign] at h
      cases h
    · intro h
      rw [opSubAssign] at h
      cases h
  | succ n ih =>
    intro x y r
    constructor
    · intro h
      rw [opAddAssign] at h ⊢
      by_cases hs : x.isNegative = y.isNegative
      · rw [if_pos hs] at h ⊢
        exact h
      · rw [if_neg hs] at h ⊢
        cases hsub : opSubAssign n x (opNeg y) with
        | ok s =>
          rw [hsub] at h
          rw [(ih x (opNeg y) s).2 hsub]
          exact h
        | throw e s =>
          rw [hsub] at h
          cases h
        | outOfFuel =>
          rw [hsub] at h
          cases h
    · intro h
      rw [opSubAssign] at h ⊢
      by_cases hs : x.isNegative ≠ y.isNegative
      · rw [if_pos hs] at h ⊢
        exact (ih x (opNeg y) r).1 h
      · rw [if_neg hs] at h ⊢
        exact h

theorem opAddAssign_mono {n m : Nat} (hnm : n ≤ m) {x y r : BigInt}
    (h : opAddAssign n x y = .ok r) : opAddAssign m x y = .ok r := by
  induction m, hnm using Nat.le_induction with
  | base => exact h
  | succ k _ ih => exact (opAddSub_mono k x y r).1 ih

theorem opSubAssign_mono {n m : Nat} (hnm : n ≤ m) {x y r : BigInt}
    (h : opSubAssign n x y = .ok r) : opSubAssign m x y = .ok r := by
  induction m, hnm using Nat.le_induction with
  | base => exact h
  | succ k _ ih => exact (opAddSub_mono k x y r).2 ih

theorem divCount_mono_succ (divisor : BigInt) (n : Nat) : ∀ (r : BigInt) (c : Int)
    (p : BigInt × Int), divCount n r divisor c = .ok p → divCount (n + 1) r divisor c = .ok p := by
  induction n with
  | zero =>
    intro r c p h
    rw [divCount] at h
    cases h
  | succ n ih =>
    intro r c p h
    rw [divCount] at h ⊢
    by_cases hc : compareMagnitude r divisor ≥ 0
    · rw [if_pos hc] at h ⊢
      cases hsub : opSubAssign n r divisor with
      | ok s =>
        rw [hsub] at h
        rw [(opAddSub_mono n r divisor s).2 hsub]
        exact ih s (c + 1) p h
      | throw e s =>
        rw [hsub] at h
        cases h
      | outOfFuel =>
        rw [hsub] at h
        cases h
    · rw [if_neg hc] at h ⊢
      exact h

theorem divCount_mono {n m : Nat} (hnm : n ≤ m) {divisor r : BigInt} {c : Int}
    {p : BigInt × Int} (h : divCount n r divisor c = .ok p) :
    divCount m r divisor c = .ok p := by
  induction m, hnm using Nat.le_induction with
  | base => exact h
  | succ k _ ih => exact divCount_mono_succ divisor k r c p ih

theorem divLoop_mono {n m : Nat} (hnm : n ≤ m) (divisor : BigInt) (ds : List Char) :
    ∀ (r : BigInt) (q qf : List Char), divLoop n divisor ds r q = .ok qf →
      divLoop m divisor ds r q = .ok qf := by
  induction ds with
  | nil =>
    intro r q qf h
    exact h
  | cons d ds ih =>
    intro r q qf h
    rw [divLoop] at h ⊢
    cases hc : divCount n (removeLeadingZeros ⟨r.number ++ [d], r.isNegative⟩) divisor 0 with
    | ok p =>
      rw [hc] at h
      rw [divCount_mono hnm hc]
      exact ih _ _ _ h
    | throw e =>
      rw [hc] at h
      cases h
    | outOfFuel =>
      rw [hc] at h
      cases h

theorem opDivAssign_mono {n m : Nat} (hnm : n ≤ m) {x y q : BigInt}
    (h : opDivAssign n x y = .ok q) : opDivAssign m x y = .ok q := by
  unfold opDivAssign at h ⊢
  by_cases h0 : y.number = ['0']
  · rw [if_pos h0] at h
    cases h
  · rw [if_neg h0] at h ⊢
    simp only at h ⊢
    by_cases hc : compareMagnitude ⟨x.number, false⟩ ⟨y.number, false⟩ < 0
    · rw [if_pos hc] at h ⊢
      exact h
    · rw [if_neg hc] at h ⊢
      cases hl : divLoop n ⟨y.number, false⟩ x.number BigInt.default [] with
      | ok qs =>
        rw [hl] at h
        rw [divLoop_mono hnm _ _ _ _ _ hl]
        exact h
      | throw e =>
        rw [hl] at h
        cases h
      | outOfFuel =>
        rw [hl] at h
        cases h

/-! ## Whatever an operator returns is right -/

theorem opAddAssign_ok {fuel : Nat} {x y r : BigInt} (hx : Canonical x) (hy : Canonical y)
    (h : opAddAssign fuel x y = .ok r) : Canonical r ∧ value r = value x + value y := by
  by_cases hl : x.isNegative = true ∧ y.number = ['0']
  · have hs : x.isNegative ≠ y.isNegative := by
      rw [hl.1, hy.2.2.2 hl.2]
      decide
    rw [(opAddSub_outOfFuel hs hl.2 fuel).1] at h
    cases h
  · obtain ⟨r1, e, c, v⟩ := opAddAssign_value fuel hx hy hl
    have := opAddAssign_mono (Nat.le_add_right fuel 2) h
    rw [e] at this
    cases this
    exact ⟨c, v⟩

theorem opSubAssign_ok {fuel : Nat} {x y r : BigInt} (hx : Canonical x) (hy : Canonical y)
    (h : opSubAssign fuel x y = .ok r) : Canonical r ∧ value r = value x - value y := by
  by_cases hl : x.isNegative = true ∧ y.number = ['0']
  · have hs : x.isNegative ≠ y.isNegative := by
      rw [hl.1, hy.2.2.2 hl.2]
      decide
    rw [(opAddSub_outOfFuel hs hl.2 fuel).2] at h
    cases h
  · obtain ⟨r1, e, c, v⟩ := opSubAssign_value fuel hx hy hl
    have := opSubAssign_mono (Nat.le_add_right fuel 2) h
    rw [e] at this
    cases this
    exact ⟨c, v⟩

theorem opDivAssign_ok {fuel : Nat} {x y q : BigInt} (hx : Canonical x) (hy : Canonical y)
    (h : opDivAssign fuel x y = .ok q) :
    Canonical q ∧ value q = Int.tdiv (value x) (value y) := by
  have hy0 : y.number ≠ ['0'] := by
    intro h0
    unfold opDivAssign at h
    rw [if_pos h0] at h
    cases h
  obtain ⟨q1, e, c, v, _⟩ := opDivAssign_spec (fuel + 10) (Nat.le_add_left 10 fuel) hx hy hy0
  have := opDivAssign_mono (Nat.le_add_right fuel 10) h
  rw [e] at this
  cases this
  exact ⟨c, v⟩

theorem Res.toVal_ok {r : Res} {v : BigInt} (h : r.toVal = .ok v) : r = .ok v := by
  cases r with
  | ok s =>
    simp only [Res.toVal, Val.ok.injEq] at h
    rw [h]
  | throw e s => cases h
  | outOfFuel => cases h

theorem opMod_ok {fuel : Nat} {x y r : BigInt} (hx : Canonical x) (hy : Canonical y)
    (h : opMod fuel x y = .ok r) : Canonical r := by
  unfold opMod at h
  by_cases h0 : y.number = ['0']
  · rw [if_pos h0] at h
    cases h
  · rw [if_neg h0] at h
    simp only at h
    cases hd : opDiv fuel x y with
    | ok q =>
      rw [hd] at h
      simp only at h
      have cq := (opDivAssign_ok hx hy (Res.toVal_ok hd)).1
      have cp := (opMul_spec cq hy).1
      cases hsub : opSub fuel x (opMul q y) with
      | ok s =>
        rw [hsub] at h
        simp only [Val.ok.injEq] at h
        have cs := (opSubAssign_ok hx cp (Res.toVal_ok hsub)).1
        by_cases hc : x.isNegative = true ∧ s.number ≠ ['0']
        · rw [if_pos hc] at h
          rw [← h]
          exact ⟨cs.1, cs.2.1, cs.2.2.1, fun hz => absurd hz hc.2⟩
        · rw [if_neg hc] at h
          rw [← h]
          exact cs
      | throw e =>
        rw [hsub] at h
        cases h
      | outOfFuel =>
        rw [hsub] at h
        cases h
    | throw e =>
      rw [hd] at h
      cases h
    | outOfFuel =>
      rw [hd] at h
      cases h

theorem ofString_ok_canonical {s : List Char} {r : BigInt} (h : ofString s = .ok r) :
    Canonical r := by
  by_cases hl : s = [] ∨ s = ['0'] ∨ s = ['+', '0'] ∨ s = ['-', '0']
  · rw [(ofString_literal hl).1] at h
    cases h
    exact canonical_zero
  · rw [ofString_general hl] at h
    by_cases hd : Digits (stripSign s)
    · rw [if_pos hd] at h
      have c := canonical_removeLeadingZeros
        (x := ⟨stripSign s, decide (s.head? = some '-')⟩) hd
      simp only [Val.ok.injEq] at h
      rw [← h]
      split
      · rename_i hz
        rw [hz]
        exact canonical_zero
      · exact c
    · rw [if_neg hd] at h
      cases h

/-! ## The canonical-form invariant -/

/-- C14: the three constructors return canonical values, and for canonical
operands whatever unary minus, unary plus, `+`, `-`, `*`, `/` and `%` return is
canonical; outside the looping case of `+=` / `-=` and with a non-zero divisor
these operators do return, with fuel for ten iterations. -/
theorem C14_canonical_invariant (x y : BigInt) (hx : Canonical x) (hy : Canonical y) :
    Canonical BigInt.default ∧
    (∀ v : Int, INT64_MIN ≤ v → v ≤ INT64_MAX → Canonical (ofInt64 v)) ∧
    (∀ (s : List Char) (r : BigInt), ofString s = .ok r → Canonical r) ∧
    Canonical (opNeg x) ∧ Canonical (opPos x) ∧ Canonical (opMul x y) ∧
    (∀ (fuel : Nat) (r : BigInt), opAdd fuel x y = .ok r → Canonical r) ∧
    (∀ (fuel : Nat) (r : BigInt), opSub fuel x y = .ok r → Canonical r) ∧
    (∀ (fuel : Nat) (r : BigInt), opDiv fuel x y = .ok r → Canonical r) ∧
    (∀ (fuel : Nat) (r : BigInt), opMod fuel x y = .ok r → Canonical r) ∧
    (¬ (x.isNegative = true ∧ y.number = ['0']) →
      (∃ r, opAdd 10 x y = .ok r ∧ Canonical r) ∧ (∃ r, opSub 10 x y = .ok r ∧ Canonical r)) ∧
    (y.number ≠ ['0'] → ∃ r, opDiv 10 x y = .ok r ∧ Canonical r) ∧
    (y.number ≠ ['0'] → ¬ (x.isNegative = true ∧ magnitude x.number < magnitude y.number) →
      ∃ r, opMod 10 x y = .ok r ∧ Canonical r) := by
  refine ⟨canonical_default, fun v _ _ => (ofInt64_spec v).1,
    fun s r h => ofString_ok_canonical h, canonical_opNeg hx, hx, (opMul_spec hx hy).1,
    fun fuel r h => (opAddAssign_ok hx hy (Res.toVal_ok h)).1,
    fun fuel r h => (opSubAssign_ok hx hy (Res.toVal_ok h)).1,
    fun fuel r h => (opDivAssign_ok hx hy (Res.toVal_ok h)).1,
    fun fuel r h => opMod_ok hx hy h, ?_, ?_, ?_⟩
  · intro hl
    obtain ⟨r1, e1, c1, _⟩ := opAddAssign_value 8 hx hy hl
    obtain ⟨r2, e2, c2, _⟩ := opSubAssign_value 8 hx hy hl
    exact ⟨⟨r1, by rw [opAdd, e1]; rfl, c1⟩, ⟨r2, by rw [opSub, e2]; rfl, c2⟩⟩
  · intro h0
    obtain ⟨q, e, c, _⟩ := opDiv_spec 10 (le_refl 10) hx hy h0
    exact ⟨q, e, c⟩
  · intro h0 hl
    obtain ⟨r, e, c, _⟩ := opMod_spec 10 (le_refl 10) hx hy h0 hl
    exact ⟨r, e, c⟩

/-- The invariant theorem C14 at `-10` and `3`. -/
theorem C14_canonical_invariant_witness :
    Canonical ⟨"10".toList, true⟩ ∧ Canonical ⟨['3'], false⟩ ∧
    ∃ r, opMod 10 ⟨"10".toList, true⟩ ⟨['3'], false⟩ = .ok r ∧ Canonical r :=
  ⟨by decide, by decide,
    (C14_canonical_invariant ⟨"10".toList, true⟩ ⟨['3'], false⟩ (by decide) (by decide)).2.2.2.2.2.2.2.2.2.2.2.2
      (by decide) (by decide)⟩

/-! ## Increment and decrement -/

theorem one_ne_zero_number : (ofInt64 1).number ≠ ['0'] := by decide

theorem canonical_one : Canonical (ofInt64 1) := by decide

theorem value_one : value (ofInt64 1) = 1 := by decide

/-- C16: for a canonical `x` and fuel for two calls, `++x` leaves and returns
`value x + 1`, `x++` leaves `value x + 1` and returns `x`, `--x` leaves and
returns `value x - 1`, `x--` leaves `value x - 1` and returns `x`; `++` on "999"
gives "1000", and `--` after "1000" returns "1000" and leaves "999". -/
theorem C16_inc_dec (fuel : Nat) (hf : 2 ≤ fuel) (x : BigInt) (hx : Canonical x) :
    (∃ r, opPreInc fuel x = .ok ⟨r, r⟩ ∧ Canonical r ∧ value r = value x + 1) ∧
    (∃ r, opPostInc fuel x = .ok ⟨r, x⟩ ∧ Canonical r ∧ value r = value x + 1) ∧
    (∃ r, opPreDec fuel x = .ok ⟨r, r⟩ ∧ Canonical r ∧ value r = value x - 1) ∧
    (∃ r, opPostDec fuel x = .ok ⟨r, x⟩ ∧ Canonical r ∧ value r = value x - 1) ∧
    opPreInc fuel ⟨"999".toList, false⟩ = .ok ⟨⟨"1000".toList, false⟩, ⟨"1000".toList, false⟩⟩ ∧
    opPostDec fuel ⟨"1000".toList, false⟩
      = .ok ⟨⟨"999".toList, false⟩, ⟨"1000".toList, false⟩⟩ := by
  obtain ⟨g, rfl⟩ : ∃ g, fuel = g + 2 := ⟨fuel - 2, by omega⟩
  have hl : ∀ z : BigInt, ¬ (z.isNegative = true ∧ (ofInt64 1).number = ['0']) :=
    fun z h => one_ne_zero_number h.2
  obtain ⟨a, ea, ca, va⟩ := opAddAssign_value g hx canonical_one (hl x)
  obtain ⟨s, es, cs, vs⟩ := opSubAssign_value g hx canonical_one (hl x)
  rw [value_one] at va vs
  refine ⟨⟨a, by rw [opPreInc, ea], ca, va⟩, ⟨a, by rw [opPostInc, ea], ca, va⟩,
    ⟨s, by rw [opPreDec, es], cs, vs⟩, ⟨s, by rw [opPostDec, es], cs, vs⟩, ?_, ?_⟩
  · obtain ⟨r, e, c, v⟩ := opAddAssign_value g (x := ⟨"999".toList, false⟩) (by decide)
      canonical_one (hl _)
    rw [opPreInc, e, canonical_inj c (y := ⟨"1000".toList, false⟩) (by decide)
      (v.trans (by decide))]
  · obtain ⟨r, e, c, v⟩ := opSubAssign_value g (x := ⟨"1000".toList, false⟩) (by decide)
      canonical_one (hl _)
    rw [opPostDec, e, canonical_inj c (y := ⟨"999".toList, false⟩) (by decide)
      (v.trans (by decide))]

/-- The increment theorem C16 at `-1` with fuel 2. -/
theorem C16_inc_dec_witness :
    2 ≤ 2 ∧ Canonical ⟨['1'], true⟩ ∧
    (∃ r, opPreInc 2 ⟨['1'], true⟩ = .ok ⟨r, r⟩ ∧ Canonical r ∧
      value r = value ⟨['1'], true⟩ + 1) :=
  ⟨by decide, by decide, (C16_inc_dec 2 (by decide) ⟨['1'], true⟩ (by decide)).1⟩

/-! ## Termination -/

/-- C17 (the code at failing inputs): for the canonical operands `-7` and `0`
neither `x += y` nor `x -= y` completes for any amount of fuel, and for `-2` and
`5` the remainder `x % y` does not either: these computations do not terminate. -/
theorem C17_add_sub_mod_do_not_terminate :
    Canonical ⟨['7'], true⟩ ∧ Canonical ⟨['0'], false⟩ ∧
    Canonical ⟨['2'], true⟩ ∧ Canonical ⟨['5'], false⟩ ∧
    (∀ fuel : Nat, opAddAssign fuel ⟨['7'], true⟩ ⟨['0'], false⟩ = .outOfFuel) ∧
    (∀ fuel : Nat, opSubAssign fuel ⟨['7'], true⟩ ⟨['0'], false⟩ = .outOfFuel) ∧
    (∀ fuel : Nat, opMod fuel ⟨['2'], true⟩ ⟨['5'], false⟩ = .outOfFuel) :=
  ⟨by decide, by decide, by decide, by decide,
    fun fuel => (opAddSub_outOfFuel (by decide) rfl fuel).1,
    fun fuel => (opAddSub_outOfFuel (by decide) rfl fuel).2,
    fun fuel => opMod_outOfFuel rfl (by decide) (by decide) fuel⟩

/-! ## Same-sign subtraction and addition -/

/-- The value written by `operator-=` in its same-sign branch, spelled out. -/
theorem opSubAssign_same_eq (fuel : Nat) {x y : BigInt} (hs : x.isNegative = y.isNegative)
    (hx : CanonDigits x.number) (hy : CanonDigits y.number) :
    opSubAssign (fuel + 1) x y = .ok
      (if magnitude x.number = magnitude y.number then ⟨['0'], false⟩
       else if magnitude y.number < magnitude x.number then
         removeLeadingZeros ⟨(subLoop x.number.reverse y.number.reverse 0).reverse, x.isNegative⟩
       else
         removeLeadingZeros
           ⟨(subLoop y.number.reverse x.number.reverse 0).reverse, !x.isNegative⟩) := by
  have hc := compareMagnitude_spec hx hy
  have hs1 : ¬ (x.isNegative ≠ y.isNegative) := by simp [hs]
  rw [opSubAssign, if_neg hs1]
  simp only
  by_cases h1 : magnitude x.number < magnitude y.number
  · rw [if_pos h1] at hc
    have n1 : ¬ magnitude x.number = magnitude y.number := by omega
    have n2 : ¬ magnitude y.number < magnitude x.number := by omega
    rw [hc, if_neg n1, if_neg n2]
    simp only [show ((-1 : Int) = 0) = False from by simp, if_false,
      show ((-1 : Int) > 0) = False from by simp, show ((-1 : Int) < 0) = True from by simp,
      decide_True, decide_False, Bool.true_and, Bool.false_and, Bool.or_false]
  · rw [if_neg h1] at hc
    by_cases h2 : magnitude x.number = magnitude y.number
    · rw [if_pos h2] at hc
      rw [hc, if_pos h2]
      simp only [if_true, ofInt64_zero]
    · rw [if_neg h2] at hc
      have p2 : magnitude y.number < magnitude x.number := by omega
      rw [hc, if_neg h2, if_pos p2]
      simp only [show ((1 : Int) = 0) = False from by simp, if_false, if_true,
        show ((1 : Int) > 0) = True from by simp, show ((1 : Int) < 0) = False from by simp,
        decide_True, decide_False, Bool.true_and, Bool.false_and, Bool.false_or]

theorem value_sub_same {x y : BigInt} (hs : x.isNegative = y.isNegative) :
    value x - value y = if x.isNegative = true then magnitude y.number - magnitude x.number
      else magnitude x.number - magnitude y.number := by
  simp only [value, ← hs]
  split <;> ring

theorem value_add_same {x y : BigInt} (hs : x.isNegative = y.isNegative) :
    value x + value y = if x.isNegative = true then -(magnitude x.number + magnitude y.number)
      else magnitude x.number + magnitude y.number := by
  simp only [value, ← hs]
  split <;> ring

/-- C18 (counterexample): `3` and `5` are canonical with the same sign flag and
different magnitudes, the operand of larger magnitude is `5`, which is not
negative, yet `3 - 5` returns `-2`, which is negative. -/
theorem C18_sub_sign_counterexample :
    Canonical ⟨['3'], false⟩ ∧ Canonical ⟨['5'], false⟩ ∧
    (⟨['3'], false⟩ : BigInt).isNegative = (⟨['5'], false⟩ : BigInt).isNegative ∧
    magnitude (⟨['3'], false⟩ : BigInt).number < magnitude (⟨['5'], false⟩ : BigInt).number ∧
    compareMagnitude ⟨['3'], false⟩ ⟨['5'], false⟩ < 0 ∧
    ∃ r, opSub 1 ⟨['3'], false⟩ ⟨['5'], false⟩ = .ok r ∧ r = ⟨['2'], true⟩ ∧
      r.isNegative ≠ (⟨['5'], false⟩ : BigInt).isNegative := by
  refine ⟨by decide, by decide, rfl, by decide, by decide, ⟨['2'], true⟩, by decide, rfl,
    by decide⟩

/-- C18 (amended): for canonical `x` and `y` with the same sign flag, `x - y`
returns with one unit of fuel; its sign flag is that of `x` when `x` has the
larger magnitude and the opposite flag when `y` has the larger magnitude, and it
is the canonical zero when the magnitudes are equal. -/
theorem C18_sub_sign_amended (fuel : Nat) (hf : 1 ≤ fuel) (x y : BigInt) (hx : Canonical x)
    (hy : Canonical y) (hs : x.isNegative = y.isNegative) :
    ∃ r, opSub fuel x y = .ok r ∧
      (magnitude y.number < magnitude x.number → r.isNegative = x.isNegative) ∧
      (magnitude x.number < magnitude y.number → r.isNegative = !x.isNegative) ∧
      (magnitude x.number = magnitude y.number → r = ⟨['0'], false⟩) := by
  obtain ⟨g, rfl⟩ : ∃ g, fuel = g + 1 := ⟨fuel - 1, by omega⟩
  have cx := ((canonical_iff x).mp hx).1
  have cy := ((canonical_iff y).mp hy).1
  obtain ⟨r, e, c, v, _⟩ := opSubAssign_same g hs cx cy
  have he := opSubAssign_same_eq g hs cx cy
  refine ⟨r, by rw [opSub, e]; rfl, ?_, ?_, ?_⟩
  · intro h
    rw [value_sub_same hs] at v
    cases hxn : x.isNegative with
    | false =>
      rw [hxn] at v
      simp only [Bool.false_eq_true, if_false] at v
      exact isNegative_of_value_nonneg c (by omega)
    | true =>
      rw [hxn] at v
      simp only [if_true] at v
      exact value_neg_isNegative c (by omega)
  · intro h
    rw [value_sub_same hs] at v
    cases hxn : x.isNegative with
    | false =>
      rw [hxn] at v
      simp only [Bool.false_eq_true, if_false] at v
      exact value_neg_isNegative c (by omega)
    | true =>
      rw [hxn] at v
      simp only [if_true] at v
      exact isNegative_of_value_nonneg c (by omega)
  · intro h
    rw [he, if_pos h] at e
    cases e
    rfl

/-- The amended sign rule C18 at `3 - 5` with fuel 1. -/
theorem C18_sub_sign_amended_witness :
    1 ≤ 1 ∧ Canonical ⟨['3'], false⟩ ∧ Canonical ⟨['5'], false⟩ ∧
    (⟨['3'], false⟩ : BigInt).isNegative = (⟨['5'], false⟩ : BigInt).isNegative ∧
    ∃ r, opSub 1 ⟨['3'], false⟩ ⟨['5'], false⟩ = .ok r ∧
      (magnitude (⟨['5'], false⟩ : BigInt).number < magnitude (⟨['3'], false⟩ : BigInt).number →
        r.isNegative = (⟨['3'], false⟩ : BigInt).isNegative) ∧
      (magnitude (⟨['3'], false⟩ : BigInt).number < magnitude (⟨['5'], false⟩ : BigInt).number →
        r.isNegative = !(⟨['3'], false⟩ : BigInt).isNegative) ∧
      (magnitude (⟨['3'], false⟩ : BigInt).number = magnitude (⟨['5'], false⟩ : BigInt).number →
        r = ⟨['0'], false⟩) :=
  ⟨by decide, by decide, by decide, rfl,
    C18_sub_sign_amended 1 (by decide) ⟨['3'], false⟩ ⟨['5'], false⟩ (by decide) (by decide) rfl⟩

/-- C19: for canonical `x` and `y` with the same sign flag, `x - y` returns with
one unit of fuel a canonical value whose magnitude is the absolute difference of
the two magnitudes; its digits are those the borrow loop writes when it
subtracts the smaller digit string from the larger, without their leading
zeros. -/
theorem C19_sub_magnitude (fuel : Nat) (hf : 1 ≤ fuel) (x y : BigInt) (hx : Canonical x)
    (hy : Canonical y) (hs : x.isNegative = y.isNegative) :
    ∃ r, opSub fuel x y = .ok r ∧ Canonical r ∧
      magnitude r.number = |magnitude x.number - magnitude y.number| ∧
      (magnitude y.number < magnitude x.number → r.number = (removeLeadingZeros
        ⟨(subLoop x.number.reverse y.number.reverse 0).reverse, x.isNegative⟩).number) ∧
      (magnitude x.number < magnitude y.number → r.number = (removeLeadingZeros
        ⟨(subLoop y.number.reverse x.number.reverse 0).reverse, !x.isNegative⟩).number) := by
  obtain ⟨g, rfl⟩ : ∃ g, fuel = g + 1 := ⟨fuel - 1, by omega⟩
  have cx := ((canonical_iff x).mp hx).1
  have cy := ((canonical_iff y).mp hy).1
  obtain ⟨r, e, c, _, m⟩ := opSubAssign_same g hs cx cy
  have he := opSubAssign_same_eq g hs cx cy
  refine ⟨r, by rw [opSub, e]; rfl, c, m, ?_, ?_⟩
  · intro h
    rw [he, if_neg (by omega), if_pos h] at e
    cases e
    rfl
  · intro h
    rw [he, if_neg (by omega), if_neg (by omega)] at e
    cases e
    rfl

/-- The borrow subtraction C19 at `1000 - 1` with fuel 1. -/
theorem C19_sub_magnitude_witness :
    1 ≤ 1 ∧ Canonical ⟨"1000".toList, false⟩ ∧ Canonical ⟨['1'], false⟩ ∧
    (⟨"1000".toList, false⟩ : BigInt).isNegative = (⟨['1'], false⟩ : BigInt).isNegative ∧
    ∃ r, opSub 1 ⟨"1000".toList, false⟩ ⟨['1'], false⟩ = .ok r ∧ Canonical r ∧
      magnitude r.number = |magnitude (⟨"1000".toList, false⟩ : BigInt).number
        - magnitude (⟨['1'], false⟩ : BigInt).number| :=
  ⟨by decide, by decide, by decide, rfl,
    (C19_sub_magnitude 1 (by decide) ⟨"1000".toList, false⟩ ⟨['1'], false⟩ (by decide)
      (by decide) rfl).imp fun _ h => ⟨h.1, h.2.1, h.2.2.1⟩⟩

theorem length_le_of_magnitude_le {s t : List Char} (hs : CanonDigits s) (ht : CanonDigits t)
    (h : magnitude s ≤ magnitude t) : s.length ≤ t.length := by
  have ht1 : 1 ≤ t.length := by
    rcases t with _ | ⟨c, cs⟩
    · exact absurd rfl ht.1
    · simp
  by_cases h0 : s = ['0']
  · rw [h0]
    exact ht1
  · have h1 := canonDigits_lower hs h0
    have h2 := magnitude_lt ht.2.1
    have h3 : (10 : Int) ^ (s.length - 1) < 10 ^ t.length := by omega
    have := (pow_lt_pow_iff_right₀ (by norm_num : (1 : Int) < 10)).mp h3
    omega

theorem length_le_succ_of_magnitude_lt {s : List Char} (hs : CanonDigits s) (n : Nat)
    (h : magnitude s < 10 ^ (n + 1)) : s.length ≤ n + 1 := by
  by_cases h0 : s = ['0']
  · rw [h0]
    simp
  · have h1 := canonDigits_lower hs h0
    have h3 : (10 : Int) ^ (s.length - 1) < 10 ^ (n + 1) := by omega
    have := (pow_lt_pow_iff_right₀ (by norm_num : (1 : Int) < 10)).mp h3
    omega

set_option maxRecDepth 100000 in
theorem add_large_example :
    (opAddAssign 1 ⟨"12345678901234567890".toList, false⟩
      ⟨"98765432109876543210".toList, false⟩).toVal
      = .ok ⟨"111111111011111111100".toList, false⟩ := by
  decide

/-- C20: for canonical `x` and `y` with the same sign flag, `x + y` returns with
one unit of fuel a value with that sign flag whose magnitude is the sum of the
two magnitudes and whose digit count is that of the longer operand or one more;
12345678901234567890 + 98765432109876543210 is 111111111011111111100. -/
theorem C20_add_same_sign (fuel : Nat) (hf : 1 ≤ fuel) (x y : BigInt) (hx : Canonical x)
    (hy : Canonical y) (hs : x.isNegative = y.isNegative) :
    (∃ r, opAdd fuel x y = .ok r ∧ r.isNegative = x.isNegative ∧
      magnitude r.number = magnitude x.number + magnitude y.number ∧
      (r.number.length = max x.number.length y.number.length ∨
        r.number.length = max x.number.length y.number.length + 1)) ∧
    opAdd fuel ⟨"12345678901234567890".toList, false⟩ ⟨"98765432109876543210".toList, false⟩
      = .ok ⟨"111111111011111111100".toList, false⟩ := by
  obtain ⟨g, rfl⟩ : ∃ g, fuel = g + 1 := ⟨fuel - 1, by omega⟩
  have cx := ((canonical_iff x).mp hx).1
  have cy := ((canonical_iff y).mp hy).1
  have mx := magnitude_nonneg cx.2.1
  have my := magnitude_nonneg cy.2.1
  constructor
  · obtain ⟨r, e, c, v, m⟩ := opAddAssign_same g hs hx.2.1 hy.2.1
    have cr := ((canonical_iff r).mp c).1
    refine ⟨r, by rw [opAdd, e]; rfl, ?_, m, ?_⟩
    · rw [value_add_same hs] at v
      cases hxn : x.isNegative with
      | false =>
        rw [hxn] at v
        simp only [Bool.false_eq_true, if_false] at v
        exact isNegative_of_value_nonneg c (by omega)
      | true =>
        have px := canonical_neg_pos hx hxn
        rw [hxn] at v
        simp only [if_true] at v
        exact value_neg_isNegative c (by omega)
    · have l1 := length_le_of_magnitude_le cx cr (by omega)
      have l2 := length_le_of_magnitude_le cy cr (by omega)
      have lx := magnitude_lt cx.2.1
      have ly := magnitude_lt cy.2.1
      have p1 : (10 : Int) ^ x.number.length ≤ 10 ^ max x.number.length y.number.length :=
        pow_le_pow_right₀ (by norm_num) (le_max_left _ _)
      have p2 : (10 : Int) ^ y.number.length ≤ 10 ^ max x.number.length y.number.length :=
        pow_le_pow_right₀ (by norm_num) (le_max_right _ _)
      have p3 : (0 : Int) < 10 ^ max x.number.length y.number.length := by positivity
      have l3 := length_le_succ_of_magnitude_lt cr (max x.number.length y.number.length)
        (by rw [m, pow_succ]; omega)
      have := max_le l1 l2
      omega
  · have h1 : opAddAssign (g + 1) ⟨"12345678901234567890".toList, false⟩
        ⟨"98765432109876543210".toList, false⟩
        = opAddAssign 1 ⟨"12345678901234567890".toList, false⟩
          ⟨"98765432109876543210".toList, false⟩ := by
      rw [opAddAssign, opAddAssign, if_pos rfl, if_pos rfl]
    rw [opAdd, h1]
    exact add_large_example

/-- The carry addition C20 at `999 + 1` with fuel 1. -/
theorem C20_add_same_sign_witness :
    1 ≤ 1 ∧ Canonical ⟨"999".toList, false⟩ ∧ Canonical ⟨['1'], false⟩ ∧
    (⟨"999".toList, false⟩ : BigInt).isNegative = (⟨['1'], false⟩ : BigInt).isNegative ∧
    ∃ r, opAdd 1 ⟨"999".toList, false⟩ ⟨['1'], false⟩ = .ok r ∧
      r.isNegative = (⟨"999".toList, false⟩ : BigInt).isNegative ∧
      magnitude r.number = magnitude (⟨"999".toList, false⟩ : BigInt).number
        + magnitude (⟨['1'], false⟩ : BigInt).number ∧
      (r.number.length = max (⟨"999".toList, false⟩ : BigInt).number.length
          (⟨['1'], false⟩ : BigInt).number.length ∨
        r.number.length = max (⟨"999".toList, false⟩ : BigInt).number.length
          (⟨['1'], false⟩ : BigInt).number.length + 1) :=
  ⟨by decide, by decide, by decide, rfl,
    (C20_add_same_sign 1 (by decide) ⟨"999".toList, false⟩ ⟨['1'], false⟩ (by decide)
      (by decide) rfl).1⟩

end BigIntCpp
